import Mathlib

/-!
Verification of the Astro-Catalogue-Viewer matching/indexing engine.

This file gives a shallow embedding, in Lean, of the core algorithms of the
repository (`app/catalog.py`, `scripts/sort_master_images.py`,
`scripts/find_duplicate_images_by_catalog.py`) and proves properties of the
embedded definitions.  Python strings are modelled by `String` with the ASCII
fragment of `str.upper`/`str.lower` (all catalog identifiers and table
entries are ASCII); Python `str(int)` is modelled by decimal digits;
the regular expressions of the source are modelled operationally, following
Python `re` left-to-right scanning with greedy backtracking semantics.
-/

namespace AstroCat

/-! ### ASCII string primitives (model of the Python `str` methods used) -/

/-- Model of Python `str.upper` restricted to ASCII (all ids are ASCII). -/
def upperStr (s : String) : String := ⟨s.data.map Char.toUpper⟩

/-- Model of Python `str.lower` restricted to ASCII. -/
def lowerStr (s : String) : String := ⟨s.data.map Char.toLower⟩

/-- Characters matched by the regex class `\s` (ASCII fragment). -/
def isSpaceChar (c : Char) : Bool :=
  c = ' ' || c = '\t' || c = '\n' || c = '\r' || c = '\x0b' || c = '\x0c'

/-- Characters matched by the separator class `[\s_-]` of the id regex. -/
def isSepChar (c : Char) : Bool := isSpaceChar c || c = '_' || c = '-'

/-- Python `[a-z0-9]`, the boundary class of the solar-alias regex. -/
def isLowerAlnum (c : Char) : Bool :=
  (97 ≤ c.toNat && c.toNat ≤ 122) || (48 ≤ c.toNat && c.toNat ≤ 57)

/-- Numeric value of a list of ASCII digit characters (model of Python `int`). -/
def digitsToNat (ds : List Char) : Nat := ds.foldl (fun a c => a * 10 + (c.toNat - 48)) 0

/-- Decimal digits of `n`, most significant first; `fuel`-driven so that the
kernel can evaluate it (the fuel `n + 1` always suffices). -/
def natReprAux : Nat → Nat → List Char
  | 0, _ => []
  | fuel + 1, n =>
    if n < 10 then [Char.ofNat (48 + n)]
    else natReprAux fuel (n / 10) ++ [Char.ofNat (48 + n % 10)]

/-- Model of Python `str(n)` for a natural number. -/
def natRepr (n : Nat) : String := ⟨natReprAux (n + 1) n⟩

/-- Order-preserving removal of duplicates (Python `dict.fromkeys` dedup). -/
def dedupKeepFirst {α : Type} [DecidableEq α] : List α → List α := go []
where
  go : List α → List α → List α
  | _, [] => []
  | seen, x :: t => if x ∈ seen then go seen t else x :: go (x :: seen) t

/-- Lexicographic-by-codepoint comparison of char lists (Python `str` `<=`). -/
def charListLe : List Char → List Char → Bool
  | [], _ => true
  | _ :: _, [] => false
  | a :: as, b :: bs =>
    if a.toNat < b.toNat then true
    else if b.toNat < a.toNat then false
    else charListLe as bs

/-- Python string comparison `a <= b`. -/
def strLeB (a b : String) : Bool := charListLe a.data b.data

/-- Stable insertion: place `x` after every element `y` with `le y x`. -/
def insertOrd {α : Type} (le : α → α → Bool) (x : α) : List α → List α
  | [] => [x]
  | y :: t => if le y x then y :: insertOrd le x t else x :: y :: t

/-- Stable sort (insertion sort).  Python `sorted` is specified to be a
stable sort, and stable sorting by a total preorder has a unique result, so
this models `sorted` exactly. -/
def sortByStable {α : Type} (le : α → α → Bool) (l : List α) : List α :=
  l.foldl (fun acc x => insertOrd le x acc) []

/-- Python `sorted` on strings. -/
def sortStrings (l : List String) : List String := sortByStable strLeB l

/-- Remove every occurrence of the character `c` (Python `s.replace(c, "")`). -/
def delChar (c : Char) (s : String) : String := ⟨s.data.filter (· ≠ c)⟩

/-- Replace every occurrence of `c` by `d` (Python `s.replace(c, d)`). -/
def subChar (c d : Char) (s : String) : String :=
  ⟨s.data.map (fun x => if x = c then d else x)⟩

/-- Python `str.strip()` (ASCII whitespace). -/
def pyStrip (s : String) : String :=
  ⟨(s.data.dropWhile isSpaceChar).reverse.dropWhile isSpaceChar |>.reverse⟩

/-- `al` occurs as a contiguous substring (Python `in`). -/
def infixB (al : List Char) : List Char → Bool
  | [] => al.isEmpty
  | c :: t => al.isPrefixOf (c :: t) || infixB al t

/-! ### The filename object-id regex

`(NGC|IC|M|(?<!I)(?<!NG)C)[\s_-]*0*(\d{1,5})(?!\d)` scanned with
`re.finditer`.  The alternatives are mutually exclusive at a given start
position (they begin with distinct letters), greedy `[\s_-]*` never has to
give characters back (the separator class is disjoint from the digits), and
the `0*`/`\d{1,5}` pair backtracks so that the largest possible number of
leading zeros is skipped while the whole digit run is consumed; a run longer
than five digits past the zeros fails the `(?!\d)` lookahead at every split
and the position does not match. -/

/-- One attempt of `0*(\d{1,5})(?!\d)` at the chars `l` (already past the
prefix).  Returns `(consumed, value)` on success. -/
def numTail (l : List Char) : Option (Nat × Nat) :=
  let seps := l.takeWhile isSepChar
  let rest := l.drop seps.length
  let run := rest.takeWhile Char.isDigit
  let r := run.length
  if r = 0 then none
  else
    let zmax := (run.takeWhile (· = '0')).length
    let j := min zmax (r - 1)
    if 5 < r - j then none
    else some (seps.length + r, digitsToNat (run.drop j))

/-- The prefix alternation, case-sensitive (as in `app/catalog.py`); `p2`,
`p1` are the two characters before the current position (for the
lookbehinds on the bare-`C` alternative). -/
def tryPfx (p2 p1 : Option Char) : List Char → Option (String × Nat)
  | 'N' :: 'G' :: 'C' :: _ => some ("NGC", 3)
  | 'I' :: 'C' :: _ => some ("IC", 2)
  | 'M' :: _ => some ("M", 1)
  | 'C' :: _ =>
    if p1 = some 'I' || (p2 = some 'N' && p1 = some 'G') then none
    else some ("C", 1)
  | _ => none

/-- The prefix alternation with `re.IGNORECASE` (as in the two scripts);
the returned prefix is upper-cased, as the scripts do `prefix.upper()`. -/
def tryPfxCI (p2 p1 : Option Char) (l : List Char) : Option (String × Nat) :=
  match l.map Char.toUpper with
  | 'N' :: 'G' :: 'C' :: _ => some ("NGC", 3)
  | 'I' :: 'C' :: _ => some ("IC", 2)
  | 'M' :: _ => some ("M", 1)
  | 'C' :: _ =>
    if p1.map Char.toUpper = some 'I'
        || (p2.map Char.toUpper = some 'N' && p1.map Char.toUpper = some 'G') then none
    else some ("C", 1)
  | _ => none

/-- A full match attempt at the current position: prefix, then separators,
zeros and digits.  Returns the produced id (`f"{prefix}{int(number)}"`) and
the number of characters consumed. -/
def tryFull (pfx : Option Char → Option Char → List Char → Option (String × Nat))
    (p2 p1 : Option Char) (l : List Char) : Option (String × Nat) :=
  match pfx p2 p1 l with
  | none => none
  | some (pfxStr, plen) =>
    match numTail (l.drop plen) with
    | none => none
    | some (consumed, v) => some (pfxStr ++ natRepr v, plen + consumed)

/-- Fuel-driven body of the `re.finditer` scan (structural recursion so the
kernel can evaluate it; every step consumes at least one character, so fuel
`l.length` never runs out — `scanIdsF_fuel_irrel` below). -/
def scanIdsF (pfx : Option Char → Option Char → List Char → Option (String × Nat)) :
    Nat → Option Char → Option Char → List Char → List String
  | 0, _, _, _ => []
  | _ + 1, _, _, [] => []
  | fuel + 1, p2, p1, c :: t =>
    match tryFull pfx p2 p1 (c :: t) with
    | some (id0, k) =>
      id0 :: scanIdsF pfx fuel ((c :: t).drop (k - 2)).head? ((c :: t).drop (k - 1)).head?
        ((c :: t).drop k)
    | none => scanIdsF pfx fuel p1 (some c) t

/-- The `re.finditer` scan: try a match at every position from left to
right; on success continue after the match, on failure advance one
character.  `p2`, `p1` hold the two characters preceding the position. -/
def scanIds (pfx : Option Char → Option Char → List Char → Option (String × Nat))
    (p2 p1 : Option Char) (l : List Char) : List String :=
  scanIdsF pfx l.length p2 p1 l

/-! ### Solar-system alias tables (`app/catalog.py`) -/

def SOLAR_OBJECTS : List String :=
  ["Sun", "Moon", "Mercury", "Venus", "Earth", "Mars", "Phobos", "Deimos",
   "Jupiter", "Io", "Europa", "Ganymede", "Callisto", "Saturn", "Titan",
   "Enceladus", "Rhea", "Iapetus", "Dione", "Tethys", "Mimas", "Uranus",
   "Miranda", "Ariel", "Umbriel", "Titania", "Oberon", "Neptune", "Triton",
   "Nereid", "Proteus", "Pluto", "Charon", "Ceres", "Vesta", "Pallas",
   "Hygiea", "Haumea", "Makemake", "Eris", "Sedna", "Orcus", "Quaoar",
   "Gonggong", "Chiron", "Chariklo", "Halley", "Encke", "Tempel 1",
   "Borrelly", "67P Churyumov-Gerasimenko", "Hartley 2", "Swift-Tuttle",
   "Hale-Bopp"]

def SOLAR_ALIAS_EXTRAS : List (String × List String) :=
  [("Sun", ["solar"]),
   ("Moon", ["luna", "lunar"]),
   ("Halley", ["halleycomet", "halley's"]),
   ("67P Churyumov-Gerasimenko",
     ["67p", "churyumov", "gerasimenko", "churyumov-gerasimenko"]),
   ("Tempel 1", ["tempel1", "tempel-1", "9p", "9p-tempel", "9p-tempel-1"]),
   ("Borrelly", ["19p", "19p-borrelly"]),
   ("Hartley 2", ["hartley2", "hartley-2", "103p", "103p-hartley", "103p-hartley-2"]),
   ("Swift-Tuttle",
     ["swifttuttle", "swift_tuttle", "109p", "109p-swift", "109p-swift-tuttle"]),
   ("Hale-Bopp", ["halebopp", "hale bopp"])]

/-- `_solar_aliases`: spacing/hyphen/apostrophe variants plus curated extras,
as a sorted duplicate-free list (Python `sorted(set(...) | set(extras))`). -/
def solarAliases (name : String) : List String :=
  let base := lowerStr name
  let v0 := [base, delChar ' ' base, subChar ' ' '-' base, subChar ' ' '_' base,
             delChar '\'' base]
  let v1 := v0 ++ v0.map (delChar '-')
  let v2 := v1 ++ v1.map (delChar '_')
  let extras := (List.lookup name SOLAR_ALIAS_EXTRAS).getD []
  sortStrings (dedupKeepFirst (v2 ++ extras))

/-- `_alias_matches`: variants of length at most two need the word-boundary
regex `(?<![a-z0-9])alias(?![a-z0-9])`; longer variants match as plain
substrings. -/
def aliasMatches (stem a : String) : Bool :=
  if a.length ≤ 2 then boundarySearch a.data none stem.data
  else infixB a.data stem.data
where
  /-- Search for an occurrence of `al` whose neighbours are not `[a-z0-9]`. -/
  boundarySearch (al : List Char) (prev : Option Char) : List Char → Bool
    | [] => al.isEmpty && (match prev with | none => true | some c => !isLowerAlnum c)
    | c :: t =>
      (al.isPrefixOf (c :: t)
        && (match prev with | none => true | some p => !isLowerAlnum p)
        && (match (c :: t).drop al.length with
            | [] => true
            | d :: _ => !isLowerAlnum d))
      || boundarySearch al (some c) t

/-- `_extract_object_ids` of `app/catalog.py`: solar-system aliases first,
then the catalog-id regex, first-seen order with duplicates removed. -/
def extractObjectIds (stem : String) : List String :=
  let lowerStem := lowerStr stem
  let solar := (SOLAR_OBJECTS.filter
      (fun name => (solarAliases name).any (fun a => aliasMatches lowerStem a))).map upperStr
  dedupKeepFirst (solar ++ scanIds tryPfx none none stem.data)

/-- `_extract_object_ids` of `scripts/sort_master_images.py`: the same regex
with `re.IGNORECASE`, upper-cased prefix, match order, no dedup. -/
def extractIdsSorter (stem : String) : List String :=
  scanIds tryPfxCI none none stem.data

/-- `_extract_object_ids` of `scripts/find_duplicate_images_by_catalog.py`:
the ignore-case regex, then `sorted(set(ids))`. -/
def extractIdsDup (name : String) : List String :=
  sortStrings (dedupKeepFirst (scanIds tryPfxCI none none name.data))

/-! ### Messier/NGC alias tables (`app/catalog.py`) -/

def MESSIER_TO_NGC : List (String × List String) :=
  [("M1", ["NGC1952"]), ("M2", ["NGC7089"]), ("M3", ["NGC5272"]),
   ("M4", ["NGC6121"]), ("M5", ["NGC5904"]), ("M6", ["NGC6405"]),
   ("M7", ["NGC6475"]), ("M8", ["NGC6523"]), ("M9", ["NGC6333"]),
   ("M10", ["NGC6254"]), ("M11", ["NGC6705"]), ("M12", ["NGC6218"]),
   ("M13", ["NGC6205"]), ("M14", ["NGC6402"]), ("M15", ["NGC7078"]),
   ("M16", ["NGC6611"]), ("M17", ["NGC6618"]), ("M18", ["NGC6613"]),
   ("M19", ["NGC6273"]), ("M20", ["NGC6514"]), ("M21", ["NGC6531"]),
   ("M22", ["NGC6656"]), ("M23", ["NGC6494"]), ("M24", ["NGC6603"]),
   ("M25", ["IC4725"]), ("M26", ["NGC6694"]), ("M27", ["NGC6853"]),
   ("M28", ["NGC6626"]), ("M29", ["NGC6913"]), ("M30", ["NGC7099"]),
   ("M31", ["NGC224"]), ("M32", ["NGC221"]), ("M33", ["NGC598"]),
   ("M34", ["NGC1039"]), ("M35", ["NGC2168"]), ("M36", ["NGC1960"]),
   ("M37", ["NGC2099"]), ("M38", ["NGC1912"]), ("M39", ["NGC7092"]),
   ("M41", ["NGC2287"]), ("M42", ["NGC1976"]), ("M43", ["NGC1982"]),
   ("M44", ["NGC2632"]), ("M46", ["NGC2437"]), ("M47", ["NGC2422"]),
   ("M48", ["NGC2548"]), ("M49", ["NGC4472"]), ("M50", ["NGC2323"]),
   ("M51", ["NGC5194"]), ("M52", ["NGC7654"]), ("M53", ["NGC5024"]),
   ("M54", ["NGC6715"]), ("M55", ["NGC6809"]), ("M56", ["NGC6779"]),
   ("M57", ["NGC6720"]), ("M58", ["NGC4579"]), ("M59", ["NGC4621"]),
   ("M60", ["NGC4649"]), ("M61", ["NGC4303"]), ("M62", ["NGC6266"]),
   ("M63", ["NGC5055"]), ("M64", ["NGC4826"]), ("M65", ["NGC3623"]),
   ("M66", ["NGC3627"]), ("M67", ["NGC2682"]), ("M68", ["NGC4590"]),
   ("M69", ["NGC6637"]), ("M70", ["NGC6681"]), ("M71", ["NGC6838"]),
   ("M72", ["NGC6981"]), ("M73", ["NGC6994"]), ("M74", ["NGC628"]),
   ("M75", ["NGC6864"]), ("M76", ["NGC650"]), ("M77", ["NGC1068"]),
   ("M78", ["NGC2068"]), ("M79", ["NGC1904"]), ("M80", ["NGC6093"]),
   ("M81", ["NGC3031"]), ("M82", ["NGC3034"]), ("M83", ["NGC5236"]),
   ("M84", ["NGC4374"]), ("M85", ["NGC4382"]), ("M86", ["NGC4406"]),
   ("M87", ["NGC4486"]), ("M88", ["NGC4501"]), ("M89", ["NGC4552"]),
   ("M90", ["NGC4569"]), ("M91", ["NGC4548"]), ("M92", ["NGC6341"]),
   ("M93", ["NGC2447"]), ("M94", ["NGC4736"]), ("M95", ["NGC3351"]),
   ("M96", ["NGC3368"]), ("M97", ["NGC3587"]), ("M98", ["NGC4192"]),
   ("M99", ["NGC4254"]), ("M100", ["NGC4321"]), ("M101", ["NGC5457"]),
   ("M102", ["NGC5866"]), ("M103", ["NGC581"]), ("M104", ["NGC4594"]),
   ("M105", ["NGC3379"]), ("M106", ["NGC4258"]), ("M107", ["NGC6171"]),
   ("M108", ["NGC3556"]), ("M109", ["NGC3992"]), ("M110", ["NGC205"])]

def NGC_TO_MESSIER : List (String × List String) :=
  [("NGC205", ["M110"]), ("NGC221", ["M32"]), ("NGC224", ["M31"]),
   ("NGC581", ["M103"]), ("NGC598", ["M33"]), ("NGC628", ["M74"]),
   ("NGC650", ["M76"]), ("NGC1039", ["M34"]), ("NGC1068", ["M77"]),
   ("NGC1904", ["M79"]), ("NGC1912", ["M38"]), ("NGC1952", ["M1"]),
   ("NGC1960", ["M36"]), ("NGC1976", ["M42"]), ("NGC1982", ["M43"]),
   ("NGC2068", ["M78"]), ("NGC2099", ["M37"]), ("NGC2168", ["M35"]),
   ("NGC2287", ["M41"]), ("NGC2323", ["M50"]), ("NGC2422", ["M47"]),
   ("NGC2437", ["M46"]), ("NGC2447", ["M93"]), ("NGC2548", ["M48"]),
   ("NGC2632", ["M44"]), ("NGC2682", ["M67"]), ("NGC3031", ["M81"]),
   ("NGC3034", ["M82"]), ("NGC3351", ["M95"]), ("NGC3368", ["M96"]),
   ("NGC3379", ["M105"]), ("NGC3556", ["M108"]), ("NGC3587", ["M97"]),
   ("NGC3623", ["M65"]), ("NGC3627", ["M66"]), ("NGC3992", ["M109"]),
   ("NGC4192", ["M98"]), ("NGC4254", ["M99"]), ("NGC4258", ["M106"]),
   ("NGC4303", ["M61"]), ("NGC4321", ["M100"]), ("NGC4374", ["M84"]),
   ("NGC4382", ["M85"]), ("NGC4406", ["M86"]), ("NGC4472", ["M49"]),
   ("NGC4486", ["M87"]), ("NGC4501", ["M88"]), ("NGC4548", ["M91"]),
   ("NGC4552", ["M89"]), ("NGC4569", ["M90"]), ("NGC4579", ["M58"]),
   ("NGC4590", ["M68"]), ("NGC4594", ["M104"]), ("NGC4621", ["M59"]),
   ("NGC4649", ["M60"]), ("NGC4736", ["M94"]), ("NGC4826", ["M64"]),
   ("NGC5024", ["M53"]), ("NGC5055", ["M63"]), ("NGC5194", ["M51"]),
   ("NGC5236", ["M83"]), ("NGC5272", ["M3"]), ("NGC5457", ["M101"]),
   ("NGC5866", ["M102"]), ("NGC5904", ["M5"]), ("NGC6093", ["M80"]),
   ("NGC6121", ["M4"]), ("NGC6171", ["M107"]), ("NGC6205", ["M13"]),
   ("NGC6218", ["M12"]), ("NGC6254", ["M10"]), ("NGC6266", ["M62"]),
   ("NGC6273", ["M19"]), ("NGC6333", ["M9"]), ("NGC6341", ["M92"]),
   ("NGC6402", ["M14"]), ("NGC6405", ["M6"]), ("NGC6475", ["M7"]),
   ("NGC6494", ["M23"]), ("NGC6514", ["M20"]), ("NGC6523", ["M8"]),
   ("NGC6531", ["M21"]), ("NGC6603", ["M24"]), ("NGC6611", ["M16"]),
   ("NGC6613", ["M18"]), ("NGC6618", ["M17"]), ("NGC6626", ["M28"]),
   ("NGC6637", ["M69"]), ("NGC6656", ["M22"]), ("NGC6681", ["M70"]),
   ("NGC6694", ["M26"]), ("NGC6705", ["M11"]), ("NGC6715", ["M54"]),
   ("NGC6720", ["M57"]), ("NGC6779", ["M56"]), ("NGC6809", ["M55"]),
   ("NGC6838", ["M71"]), ("NGC6853", ["M27"]), ("NGC6864", ["M75"]),
   ("NGC6913", ["M29"]), ("NGC6981", ["M72"]), ("NGC6994", ["M73"]),
   ("NGC7078", ["M15"]), ("NGC7089", ["M2"]), ("NGC7092", ["M39"]),
   ("NGC7099", ["M30"]), ("NGC7654", ["M52"]), ("IC4725", ["M25"])]

/-- `MESSIER_TO_NGC.get(id, [])`. -/
def m2n (id0 : String) : List String := (List.lookup id0 MESSIER_TO_NGC).getD []

/-- `NGC_TO_MESSIER.get(id, [])`. -/
def n2m (id0 : String) : List String := (List.lookup id0 NGC_TO_MESSIER).getD []

/-- Append each element of `as` not already present (the inner alias loops
of `_expand_catalog_aliases`; the `seen` set always holds exactly the
elements of the output list, so membership in the list models it). -/
def addAliases (acc : List String) (as : List String) : List String :=
  as.foldl (fun acc2 a => if a ∈ acc2 then acc2 else acc2 ++ [a]) acc

/-- Processing of one incoming id by `_expand_catalog_aliases`. -/
def expandOne (acc : List String) (objectId : String) : List String :=
  if objectId = "" then acc
  else
    let normalized := upperStr objectId
    let acc1 := if normalized ∈ acc then acc else acc ++ [normalized]
    let acc2 := addAliases acc1 (m2n normalized)
    addAliases acc2 (n2m normalized)

/-- `_expand_catalog_aliases` of `app/catalog.py`. -/
def expandCatalogAliases (objectIds : List String) : List String :=
  objectIds.foldl expandOne []

/-- The combined per-entry facts of `MESSIER_TO_NGC`: each value is a
singleton `[v]` whose inverse lookup gives back the key, the value is not
itself a Messier key, value and key are upper-case and nonempty, and the
key is not an NGC key. -/
def m2nGood : Bool := MESSIER_TO_NGC.all (fun kv =>
  match kv.2 with
  | [v] => List.lookup v NGC_TO_MESSIER = some [kv.1]
      && List.lookup v MESSIER_TO_NGC = none
      && upperStr v = v && v ≠ "" && List.lookup kv.1 NGC_TO_MESSIER = none
  | _ => false)

/-- The symmetric facts of `NGC_TO_MESSIER`. -/
def n2mGood : Bool := NGC_TO_MESSIER.all (fun kv =>
  match kv.2 with
  | [v] => List.lookup v MESSIER_TO_NGC = some [kv.1]
      && List.lookup v NGC_TO_MESSIER = none
      && upperStr v = v && v ≠ "" && List.lookup kv.1 MESSIER_TO_NGC = none
  | _ => false)

/-- One file met by the directory walk of `_build_image_index`: the
directory it was found in, its filename, and the result of
`str((root/filename).resolve())` (resolution is a filesystem fact, so it is
carried as data). -/
structure ImgFile where
  dir : String
  name : String
  resolved : String
deriving DecidableEq, Repr

/-- Index of the last `'.'` in the chars (`name.rfind('.')`). -/
def rfindDotAux : List Char → Nat → Option Nat → Option Nat
  | [], _, acc => acc
  | c :: t, i, acc => rfindDotAux t (i + 1) (if c = '.' then some i else acc)

/-- `Path(filename).suffix`: the part from the last dot, when that dot is
neither the leading character nor the last character. -/
def pySuffix (name : String) : String :=
  match rfindDotAux name.data 0 none with
  | some i => if 0 < i ∧ i < name.data.length - 1 then ⟨name.data.drop i⟩ else ""
  | none => ""

/-- `Path(filename).stem`: the filename with `pySuffix` removed. -/
def pyStem (name : String) : String :=
  match rfindDotAux name.data 0 none with
  | some i => if 0 < i ∧ i < name.data.length - 1 then ⟨name.data.take i⟩ else name
  | none => name

/-- Ids under which a walked file is indexed:
`_expand_catalog_aliases(_extract_object_ids(Path(filename).stem.upper()))`. -/
def fileMatches (f : ImgFile) : List String :=
  expandCatalogAliases (extractObjectIds (upperStr (pyStem f.name)))

/-- The sort key of `_build_image_index`: `p.name.lower()`. -/
def fileKeyLe (a b : ImgFile) : Bool := strLeB (lowerStr a.name) (lowerStr b.name)

/-- `index.setdefault(id, []).append(f)` on an association list. -/
def indexAdd (idx : List (String × List ImgFile)) (id0 : String) (f : ImgFile) :
    List (String × List ImgFile) :=
  match idx with
  | [] => [(id0, [f])]
  | (k, vs) :: t => if k = id0 then (k, vs ++ [f]) :: t else (k, vs) :: indexAdd t id0 f

/-- `seen.setdefault(id, set()).add(r)` on an association list of lists. -/
def seenAdd (seen : List (String × List String)) (id0 : String) (r : String) :
    List (String × List String) :=
  match seen with
  | [] => [(id0, [r])]
  | (k, vs) :: t => if k = id0 then (k, vs ++ [r]) :: t else (k, vs) :: seenAdd t id0 r

/-- Lookup with `[]` default (`index.get(id, [])`). -/
def idxFind (idx : List (String × List ImgFile)) (id0 : String) : List ImgFile :=
  (List.lookup id0 idx).getD []

/-- `seen[id]` as a set of resolved paths. -/
def seenGet (seen : List (String × List String)) (id0 : String) : List String :=
  (List.lookup id0 seen).getD []

/-- The per-id loop body of `_build_image_index`: skip the file for an id
whose seen-set already holds its resolved path. -/
def addFileIds (st : List (String × List ImgFile) × List (String × List String))
    (f : ImgFile) (ms : List String) :
    List (String × List ImgFile) × List (String × List String) :=
  ms.foldl
    (fun st2 id0 =>
      if f.resolved ∈ seenGet st2.2 id0 then st2
      else (indexAdd st2.1 id0 f, seenAdd st2.2 id0 f.resolved))
    st

/-- The extension filter `Path(filename).suffix.lower() in exts`. -/
def keepExt (exts : List String) (f : ImgFile) : Bool :=
  (exts.map lowerStr).contains (lowerStr (pySuffix f.name))

/-- The per-file body of the walk: extension filter, id extraction and
expansion, then the per-id dedup loop. -/
def buildStep (exts : List String)
    (st : List (String × List ImgFile) × List (String × List String))
    (f : ImgFile) :
    List (String × List ImgFile) × List (String × List String) :=
  if keepExt exts f then
    let ms := fileMatches f
    if ms.isEmpty then st else addFileIds st f ms
  else st

/-- `_build_image_index` with the walk abstracted as the list of files met
(in enumeration order): fold the per-file body, then sort every id's list
case-insensitively by filename. -/
def buildImageIndex (exts : List String) (files : List ImgFile) :
    List (String × List ImgFile) :=
  ((files.foldl (buildStep exts) ([], [])).1).map
    (fun kv => (kv.1, sortByStable fileKeyLe kv.2))

-- ### the dedup invariant

/-- Invariant of the fold state: every indexed file's resolved path is in
the id's seen set, and the resolved paths of one id's list are distinct. -/
def StInv (st : List (String × List ImgFile) × List (String × List String)) : Prop :=
  ∀ id0 : String,
    (∀ f ∈ idxFind st.1 id0, f.resolved ∈ seenGet st.2 id0)
    ∧ ((idxFind st.1 id0).map (fun f => f.resolved)).Nodup

-- ### exact seen/index correspondence and the no-dedup characterization

/-- In every reachable state the seen-set of an id is exactly the list of
resolved paths of the id's indexed files. -/
def StExact (st : List (String × List ImgFile) × List (String × List String)) : Prop :=
  ∀ id0 : String, seenGet st.2 id0 = (idxFind st.1 id0).map (fun f => f.resolved)

/-- The duplicate group emitted by the per-digest loop of
`find_duplicate_images_by_catalog.py` (lines 114-136). -/
structure DupGroup where
  catalog : String
  hash : String
  files : List (String × List String)
  common_ids : List String
deriving DecidableEq, Repr

/-- `set.intersection(*id_sets)` as a list rooted at the first set. -/
def interAll : List (List String) → List String
  | [] => []
  | s0 :: rest => rest.foldl (fun acc t => acc.filter (fun x => t.contains x)) s0

/-- `common_ids` of one digest group: empty unless every file's id set is
non-empty, else the sorted intersection (`sorted(set.intersection(*id_sets))`). -/
def commonIdsOf (idSets : List (List String)) : List String :=
  if idSets.all (fun s => !s.isEmpty) then sortStrings (interAll idSets) else []

/-- The body of the per-digest loop of the duplicate detector: skip groups
of one file, extract ids per stem, intersect, keep the group only when the
sorted intersection is non-empty. -/
def processGroup (catalog digest : String) (stems : List String) : Option DupGroup :=
  if stems.length ≤ 1 then none
  else
    let fileItems := stems.map (fun s => (s, extractIdsDup s))
    let idSets := fileItems.map (fun it => it.2)
    if (commonIdsOf idSets).isEmpty then none
    else some ⟨catalog, digest, fileItems, commonIdsOf idSets⟩

/-! ### Claim C5: the master image router -/

def CATALOG_PREFIX : List (String × String) :=
  [("Messier", "M"), ("NGC", "NGC"), ("IC", "IC"), ("Caldwell", "C")]

/-- `prefix_to_catalog = {v: k for k, v in CATALOG_PREFIX.items()}`. -/
def prefixToCatalog : List (String × String) :=
  CATALOG_PREFIX.map (fun kv => (kv.2, kv.1))

/-- Python `str.startswith`. -/
def strStartsWith (s pfx : String) : Bool := pfx.data.isPrefixOf s.data

/-- `_pick_catalog`: first prefix of the fixed priority list that some
extracted id starts with. -/
def pickCatalog (objectIds : List String) : Option String :=
  (["M", "NGC", "IC", "C"]).find? (fun pfx => objectIds.any (fun i => strStartsWith i pfx))

inductive RouteAction where
  | skip : RouteAction
  | moveTo (dir : String) : RouteAction
deriving DecidableEq, Repr

/-- The catalog-choice part of the per-file loop of
`sort_master_images.py` (`main`, lines 97-110): extract ids from the
upper-cased stem, pick a prefix by priority, map it to a catalog, look up
the catalog's first configured directory; any failure skips the file. -/
def routeDecision (catalogDirs : List (String × String)) (stem : String) : RouteAction :=
  match pickCatalog (extractIdsSorter (upperStr stem)) with
  | none => .skip
  | some pfx =>
    match List.lookup pfx prefixToCatalog with
    | none => .skip
    | some catalogName =>
      match List.lookup catalogName catalogDirs with
      | none => .skip
      | some dir => .moveTo dir

/-- The catalog chosen for a list of extracted ids. -/
def chosenCatalogOf (objectIds : List String) : Option String :=
  (pickCatalog objectIds).bind (fun pfx => List.lookup pfx prefixToCatalog)

/-! ### Claim C9: collision-free target names -/

/-- `f"{path.stem}-{counter}{path.suffix}"`. -/
def candName (stem suffix : String) (k : Nat) : String :=
  stem ++ "-" ++ natRepr k ++ suffix

/-- The `while target_path.exists()` loop with the counter; fuel
`existing.length + 1` always suffices (`exists_free_cand`). -/
def collideLoop (existing : List String) (stem suffix : String) : Nat → Nat → String
  | 0, k => candName stem suffix k
  | fuel + 1, k =>
    if candName stem suffix k ∈ existing then collideLoop existing stem suffix fuel (k + 1)
    else candName stem suffix k

/-- The target-name choice of `sort_master_images.py` (lines 111-124):
the original filename when free, else the first free `stem-k.suffix`. -/
def chooseTarget (existing : List String) (name stem suffix : String) : String :=
  if name ∈ existing then collideLoop existing stem suffix (existing.length + 1) 1
  else name

/-! ### Claim C2: the image-only synthesis loop and its raw-string regex bug -/

/-- The value test of `_matches_catalog_object_id`.  The source writes the
pattern as `r"^M\\d+$"` — a **raw** string, so the regex is `^M\\d+$`: the
catalog prefix, then a literal backslash, then one or more literal letters
`d`. -/
def buggyMatch (pfx value : String) : Bool :=
  pfx.data.isPrefixOf value.data &&
    (match value.data.drop pfx.data.length with
     | c :: ds => c = '\\' && !ds.isEmpty && ds.all (fun d => d = 'd')
     | [] => false)

/-- `_matches_catalog_object_id` of `app/catalog.py` (lines 793-804). -/
def matchesCatalogObjectId (catalogName objectId : String) : Bool :=
  let name := lowerStr (pyStrip catalogName)
  let value := upperStr (pyStrip objectId)
  if name = "messier" then buggyMatch "M" value
  else if name = "caldwell" then buggyMatch "C" value
  else if name = "ngc" then buggyMatch "NGC" value
  else if name = "ic" then buggyMatch "IC" value
  else true

/-- `_catalog_prefix` of `app/catalog.py` (lines 780-790). -/
def catalogPrefixOf (catalogName : String) : String :=
  let name := lowerStr (pyStrip catalogName)
  if name = "messier" then "M"
  else if name = "ngc" then "NGC"
  else if name = "ic" then "IC"
  else if name = "caldwell" then "C"
  else ""

/-- The image-only synthesis loop of `load_catalog_items` (lines 479-508):
the index ids for which a minimal image-only record is appended — those
with a non-empty catalog prefix, passing `_matches_catalog_object_id`, and
absent from the metadata ids. -/
def imageOnlyIds (catalogName : String) (indexIds : List String)
    (metadataIds : List String) : List String :=
  indexIds.filter (fun id0 =>
    !(catalogPrefixOf catalogName = "")
    && matchesCatalogObjectId catalogName id0
    && !(metadataIds.contains id0))

/-! ### Claim C10: no IC catalog survives config merging -/

/-- A catalog entry of the loaded configuration file.  A `none` field
models an absent key of the JSON object (a `null` value merges slightly
differently in Python but can never produce the name `"IC"` either). -/
structure RawCatalog where
  name : Option String
  metadata_file : Option String
  image_dirs : List String
deriving DecidableEq, Repr

/-- The four entries of `DEFAULT_CONFIG["catalogs"]`. -/
def DEFAULT_CATALOGS : List RawCatalog :=
  [⟨some "Messier", some "data/object_metadata.json", []⟩,
   ⟨some "NGC", some "data/ngc_metadata.json", []⟩,
   ⟨some "Caldwell", some "data/caldwell_metadata.json", []⟩,
   ⟨some "Solar system", some "data/solar_system_metadata.json", []⟩]

/-- Python dict assignment: replace the value at an existing key in place,
else append the binding. -/
def dictInsert {ν : Type} (l : List (Option String × ν)) (k : Option String) (v : ν) :
    List (Option String × ν) :=
  match l with
  | [] => [(k, v)]
  | (k', v') :: t => if k' = k then (k', v) :: t else (k', v') :: dictInsert t k v

/-- `existing_catalogs = {c.get("name"): c for c in loaded.get("catalogs", [])}`. -/
def existingCatalogs (loaded : List RawCatalog) : List (Option String × RawCatalog) :=
  loaded.foldl (fun d c => dictInsert d c.name c) []

/-- `existing_catalogs.pop("IC", None)`. -/
def dictPop {ν : Type} (l : List (Option String × ν)) (k : Option String) :
    List (Option String × ν) :=
  l.filter (fun kv => kv.1 ≠ k)

/-- `updated = default_catalog.copy(); updated.update(existing[name])`:
a field of the loaded entry replaces the default's when present. -/
def updateCatalog (base c : RawCatalog) : RawCatalog :=
  { name := match c.name with | some n => some n | none => base.name,
    metadata_file := match c.metadata_file with | some m => some m | none => base.metadata_file,
    image_dirs := c.image_dirs }

/-- The `catalogs` list built by `_merge_default_config` (lines 599-625):
defaults merged with same-named loaded entries, then the remaining custom
entries whose name is not already present (`"IC"` having been popped).
`_normalize_catalog_paths` only rewrites `image_dirs` and the master
directory, never a name, so it is omitted here. -/
def mergeCatalogs (loaded : List RawCatalog) : List RawCatalog :=
  let existing := dictPop (existingCatalogs loaded) (some "IC")
  let base := DEFAULT_CATALOGS.map (fun dc =>
    match List.lookup dc.name existing with
    | some c => updateCatalog dc c
    | none => dc)
  existing.foldl
    (fun acc kv =>
      if (acc.map (fun c => c.name)).contains kv.1 then acc else acc ++ [kv.2])
    base

/-- `load_config`: merge the parsed file when it exists, else merge `{}`. -/
def loadConfigCatalogs (fileContents : Option (List RawCatalog)) : List RawCatalog :=
  mergeCatalogs (fileContents.getD [])

/-! ### Theorems -/

theorem numTail_consumed_pos {l : List Char} {c : Nat} {v : Nat}
    (h : numTail l = some (c, v)) : 1 ≤ c := by
  unfold numTail at h
  simp only at h
  split at h
  · exact absurd h (by simp)
  · split at h
    · exact absurd h (by simp)
    · simp only [Option.some_inj, Prod.mk.injEq] at h
      obtain ⟨h1, _⟩ := h
      omega

theorem tryFull_consumed_pos
    (pfx : Option Char → Option Char → List Char → Option (String × Nat))
    {p2 p1 : Option Char} {l : List Char} {s : String} {k : Nat}
    (h : tryFull pfx p2 p1 l = some (s, k)) : 1 ≤ k := by
  unfold tryFull at h
  split at h
  · exact absurd h (by simp)
  · split at h
    · exact absurd h (by simp)
    · rename_i pr _ _ hnum
      simp only [Option.some_inj, Prod.mk.injEq] at h
      obtain ⟨_, h2⟩ := h
      have := numTail_consumed_pos hnum
      omega

theorem scanIdsF_fuel_irrel
    (pfx : Option Char → Option Char → List Char → Option (String × Nat)) :
    ∀ fuel fuel' : Nat, ∀ p2 p1 : Option Char, ∀ l : List Char,
      l.length ≤ fuel → l.length ≤ fuel' →
      scanIdsF pfx fuel p2 p1 l = scanIdsF pfx fuel' p2 p1 l := by
  intro fuel
  induction fuel with
  | zero =>
    intro fuel' p2 p1 l hf hf'
    have : l = [] := List.eq_nil_of_length_eq_zero (Nat.le_zero.mp hf)
    subst this
    cases fuel' <;> rfl
  | succ fuel ih =>
    intro fuel' p2 p1 l hf hf'
    cases l with
    | nil => cases fuel' <;> rfl
    | cons c t =>
      cases fuel' with
      | zero => exact absurd hf' (by simp)
      | succ fuel' =>
        rw [scanIdsF, scanIdsF]
        simp only [List.length_cons] at hf hf'
        cases htry : tryFull pfx p2 p1 (c :: t) with
        | none =>
          simp only
          exact ih fuel' p1 (some c) t (by omega) (by omega)
        | some r =>
          cases r with
          | mk id0 k =>
            simp only
            have hk := tryFull_consumed_pos pfx htry
            have hlen : ((c :: t).drop k).length ≤ fuel := by
              simp only [List.length_drop, List.length_cons]
              omega
            have hlen' : ((c :: t).drop k).length ≤ fuel' := by
              simp only [List.length_drop, List.length_cons]
              omega
            rw [ih fuel' _ _ _ hlen hlen']

/-- The recursion equation of the scan in terms of `scanIds` itself: the
fuel in the definition is invisible. -/
theorem scanIds_cons
    (pfx : Option Char → Option Char → List Char → Option (String × Nat))
    (p2 p1 : Option Char) (c : Char) (t : List Char) :
    scanIds pfx p2 p1 (c :: t) =
      match tryFull pfx p2 p1 (c :: t) with
      | some (id0, k) =>
        id0 :: scanIds pfx ((c :: t).drop (k - 2)).head? ((c :: t).drop (k - 1)).head?
          ((c :: t).drop k)
      | none => scanIds pfx p1 (some c) t := by
  unfold scanIds
  rw [List.length_cons, scanIdsF]
  cases htry : tryFull pfx p2 p1 (c :: t) with
  | none => rfl
  | some r =>
    cases r with
    | mk id0 k =>
      simp only
      have hk := tryFull_consumed_pos pfx htry
      rw [scanIdsF_fuel_irrel pfx _ (((c :: t).drop k).length) _ _ _
        (by simp; omega) (by simp)]

/-! ### Facts about the alias tables and `upperStr`, used for idempotency -/

theorem charToNat_ofNat_valid (n : Nat) (h : n.isValidChar) : (Char.ofNat n).toNat = n := by
  rw [Char.ofNat, dif_pos h]; rfl

theorem toUpper_of_not_lower (d : Char) (h : ¬(d.toNat ≥ 97 ∧ d.toNat ≤ 122)) :
    d.toUpper = d := by
  unfold Char.toUpper
  exact if_neg h

theorem toUpper_of_lower (d : Char) (h : d.toNat ≥ 97 ∧ d.toNat ≤ 122) :
    d.toUpper = Char.ofNat (d.toNat - 32) := by
  unfold Char.toUpper
  exact if_pos h

theorem toUpper_idem (c : Char) : c.toUpper.toUpper = c.toUpper := by
  by_cases h : c.toNat ≥ 97 ∧ c.toNat ≤ 122
  · rw [toUpper_of_lower c h]
    have hv : (c.toNat - 32).isValidChar := Or.inl (by omega)
    have h2 : (Char.ofNat (c.toNat - 32)).toNat = c.toNat - 32 := charToNat_ofNat_valid _ hv
    exact toUpper_of_not_lower _ (by omega)
  · rw [toUpper_of_not_lower c h, toUpper_of_not_lower c h]

theorem upperStr_idem (s : String) : upperStr (upperStr s) = upperStr s := by
  unfold upperStr
  cases s with
  | mk data =>
    simp only [List.map_map]
    congr 1
    exact List.map_congr_left (fun a _ => toUpper_idem a)

theorem upperStr_ne_empty {s : String} (h : s ≠ "") : upperStr s ≠ "" := by
  cases s with
  | mk data =>
    cases data with
    | nil => exact absurd rfl h
    | cons c t =>
      intro hc
      exact String.noConfusion hc (fun hd => List.noConfusion hd)

theorem lookup_pair_mem {β : Type} (l : List (String × β)) (k : String) (v : β)
    (h : List.lookup k l = some v) : (k, v) ∈ l := by
  induction l with
  | nil => exact absurd h (by simp [List.lookup])
  | cons kv t ih =>
    cases kv with
    | mk a b =>
      rw [List.lookup] at h
      by_cases hk : (k == a) = true
      · simp only [hk] at h
        have hkk : k = a := beq_iff_eq.mp hk
        simp only [Option.some_inj] at h
        subst hkk
        subst h
        exact List.mem_cons_self _ _
      · rw [Bool.not_eq_true] at hk
        simp only [hk] at h
        exact List.mem_cons_of_mem _ (ih h)

theorem m2nGood_true : m2nGood = true := by decide

theorem n2mGood_true : n2mGood = true := by decide

theorem m2n_fact {k : String} {vs : List String}
    (h : List.lookup k MESSIER_TO_NGC = some vs) :
    ∃ v, vs = [v] ∧ List.lookup v NGC_TO_MESSIER = some [k]
      ∧ List.lookup v MESSIER_TO_NGC = none ∧ upperStr v = v ∧ v ≠ ""
      ∧ List.lookup k NGC_TO_MESSIER = none := by
  have hm := lookup_pair_mem _ _ _ h
  have hall := m2nGood_true
  rw [m2nGood, List.all_eq_true] at hall
  have hp := hall _ hm
  match vs, hp with
  | [v], hv =>
    simp only [Bool.and_eq_true, decide_eq_true_eq] at hv
    exact ⟨v, rfl, hv.1.1.1.1, hv.1.1.1.2, hv.1.1.2, hv.1.2, hv.2⟩

theorem n2m_fact {k : String} {vs : List String}
    (h : List.lookup k NGC_TO_MESSIER = some vs) :
    ∃ v, vs = [v] ∧ List.lookup v MESSIER_TO_NGC = some [k]
      ∧ List.lookup v NGC_TO_MESSIER = none ∧ upperStr v = v ∧ v ≠ ""
      ∧ List.lookup k MESSIER_TO_NGC = none := by
  have hm := lookup_pair_mem _ _ _ h
  have hall := n2mGood_true
  rw [n2mGood, List.all_eq_true] at hall
  have hp := hall _ hm
  match vs, hp with
  | [v], hv =>
    simp only [Bool.and_eq_true, decide_eq_true_eq] at hv
    exact ⟨v, rfl, hv.1.1.1.1, hv.1.1.1.2, hv.1.1.2, hv.1.2, hv.2⟩

/-! ### C3 body -/

theorem addAliases_nil (acc : List String) : addAliases acc [] = acc := rfl

theorem addAliases_single (acc : List String) (a : String) :
    addAliases acc [a] = if a ∈ acc then acc else acc ++ [a] := rfl

theorem expandOne_empty (L : List String) : expandOne L "" = L := by
  unfold expandOne
  rw [if_pos rfl]

theorem expandOne_eq (L : List String) (o : String) (ho : o ≠ "") :
    expandOne L o =
      addAliases
        (addAliases (if upperStr o ∈ L then L else L ++ [upperStr o]) (m2n (upperStr o)))
        (n2m (upperStr o)) := by
  unfold expandOne
  rw [if_neg ho]

theorem expand_append (l₁ l₂ : List String) :
    expandCatalogAliases (l₁ ++ l₂) =
      List.foldl expandOne (expandCatalogAliases l₁) l₂ := by
  unfold expandCatalogAliases
  rw [List.foldl_append]

theorem m2n_lookup_none {k : String} (h : List.lookup k MESSIER_TO_NGC = none) :
    m2n k = [] := by
  unfold m2n
  rw [h]
  rfl

theorem n2m_lookup_none {k : String} (h : List.lookup k NGC_TO_MESSIER = none) :
    n2m k = [] := by
  unfold n2m
  rw [h]
  rfl

/-- Case analysis on the aliases of an id: either no table knows it, or it
is a Messier key with a singleton NGC value, or an NGC key with a singleton
Messier value, with the inverse facts in either case. -/
theorem alias_cases (nid : String) :
    (m2n nid = [] ∧ n2m nid = [])
    ∨ (∃ v, m2n nid = [v] ∧ n2m nid = [] ∧ m2n v = [] ∧ n2m v = [nid]
        ∧ upperStr v = v ∧ v ≠ "")
    ∨ (∃ v, n2m nid = [v] ∧ m2n nid = [] ∧ n2m v = [] ∧ m2n v = [nid]
        ∧ upperStr v = v ∧ v ≠ "") := by
  rcases hm : List.lookup nid MESSIER_TO_NGC with _ | vs
  · rcases hg : List.lookup nid NGC_TO_MESSIER with _ | vs2
    · exact Or.inl ⟨m2n_lookup_none hm, n2m_lookup_none hg⟩
    · obtain ⟨v, hvs, hinv, hvn, hvu, hvne, hkn⟩ := n2m_fact hg
      refine Or.inr (Or.inr ⟨v, ?_, m2n_lookup_none hm, n2m_lookup_none hvn, ?_, hvu, hvne⟩)
      · unfold n2m
        rw [hg, hvs]
        rfl
      · unfold m2n
        rw [hinv]
        rfl
  · obtain ⟨v, hvs, hinv, hvn, hvu, hvne, hkn⟩ := m2n_fact hm
    refine Or.inr (Or.inl ⟨v, ?_, n2m_lookup_none hkn, m2n_lookup_none hvn, ?_, hvu, hvne⟩)
    · unfold m2n
      rw [hm, hvs]
      rfl
    · unfold n2m
      rw [hinv]
      rfl

/-- Replay of a single batch: if the state `L` replays to itself, then so
does the state after processing one more id. -/
theorem expand_step (L : List String) (o : String)
    (hI : expandCatalogAliases L = L) :
    expandCatalogAliases (expandOne L o) = expandOne L o := by
  by_cases ho : o = ""
  · rw [ho, expandOne_empty, hI]
  · have hnne : upperStr o ≠ "" := upperStr_ne_empty ho
    have hnu : upperStr (upperStr o) = upperStr o := upperStr_idem o
    have hEo := expandOne_eq L o ho
    obtain ⟨n, hn⟩ : ∃ nn, upperStr o = nn := ⟨_, rfl⟩
    rw [hn] at hEo hnne hnu
    rcases alias_cases n with ⟨hm0, hg0⟩ | ⟨v, hm1, hg1, hvm, hvn, hvu, hvne⟩
      | ⟨v, hg1, hm1, hvn, hvm, hvu, hvne⟩
    · -- no aliases at all: batch is [] or [n]
      rw [hEo, hm0, hg0, addAliases_nil, addAliases_nil]
      by_cases hmem : n ∈ L
      · rw [if_pos hmem]
        exact hI
      · rw [if_neg hmem]
        rw [expand_append, hI, List.foldl_cons, List.foldl_nil]
        rw [expandOne_eq L n hnne, hnu, hm0, hg0, addAliases_nil, addAliases_nil,
          if_neg hmem]
    · -- n is a Messier key with alias v
      rw [hEo, hm1, hg1, addAliases_nil, addAliases_single]
      by_cases hmem : n ∈ L
      · rw [if_pos hmem]
        by_cases hv : v ∈ L
        · rw [if_pos hv]
          exact hI
        · rw [if_neg hv]
          rw [expand_append, hI, List.foldl_cons, List.foldl_nil]
          rw [expandOne_eq L v hvne, hvu, hvm, hvn, addAliases_nil, addAliases_single,
            if_neg hv, if_pos (List.mem_append_left _ hmem)]
      · rw [if_neg hmem]
        have hvnn : v ≠ n := by
          intro he
          rw [he] at hvm
          rw [hvm] at hm1
          exact List.noConfusion hm1
        by_cases hv : v ∈ L ++ [n]
        · have hvL : v ∈ L := by
            rcases List.mem_append.mp hv with h1 | h1
            · exact h1
            · exact absurd (List.mem_singleton.mp h1) hvnn
          rw [if_pos hv]
          rw [expand_append, hI, List.foldl_cons, List.foldl_nil]
          rw [expandOne_eq L n hnne, hnu, hm1, hg1, addAliases_nil, addAliases_single,
            if_neg hmem, if_pos (List.mem_append_left _ hvL)]
        · rw [if_neg hv]
          rw [List.append_assoc]
          rw [expand_append, hI]
          simp only [List.cons_append, List.nil_append, List.foldl_cons, List.foldl_nil]
          rw [expandOne_eq L n hnne, hnu, hm1, hg1, addAliases_nil, addAliases_single,
            if_neg hmem, if_neg hv]
          rw [expandOne_eq _ v hvne, hvu, hvm, hvn, addAliases_nil, addAliases_single]
          have hvin : v ∈ (L ++ [n]) ++ [v] := by simp
          have hnin : n ∈ (L ++ [n]) ++ [v] := by simp
          rw [if_pos hvin, if_pos hnin]
          simp
    · -- n is an NGC key with alias v (symmetric)
      rw [hEo, hm1, hg1, addAliases_single, addAliases_nil]
      by_cases hmem : n ∈ L
      · rw [if_pos hmem]
        by_cases hv : v ∈ L
        · rw [if_pos hv]
          exact hI
        · rw [if_neg hv]
          rw [expand_append, hI, List.foldl_cons, List.foldl_nil]
          rw [expandOne_eq L v hvne, hvu, hvm, hvn, addAliases_single, addAliases_nil,
            if_neg hv, if_pos (List.mem_append_left _ hmem)]
      · rw [if_neg hmem]
        have hvnn : v ≠ n := by
          intro he
          rw [he] at hvn
          rw [hvn] at hg1
          exact List.noConfusion hg1
        by_cases hv : v ∈ L ++ [n]
        · have hvL : v ∈ L := by
            rcases List.mem_append.mp hv with h1 | h1
            · exact h1
            · exact absurd (List.mem_singleton.mp h1) hvnn
          rw [if_pos hv]
          rw [expand_append, hI, List.foldl_cons, List.foldl_nil]
          rw [expandOne_eq L n hnne, hnu, hm1, hg1, addAliases_single, addAliases_nil,
            if_neg hmem, if_pos (List.mem_append_left _ hvL)]
        · rw [if_neg hv]
          rw [List.append_assoc]
          rw [expand_append, hI]
          simp only [List.cons_append, List.nil_append, List.foldl_cons, List.foldl_nil]
          rw [expandOne_eq L n hnne, hnu, hm1, hg1, addAliases_single, addAliases_nil,
            if_neg hmem, if_neg hv]
          rw [expandOne_eq _ v hvne, hvu, hvm, hvn, addAliases_single, addAliases_nil]
          have hvin : v ∈ (L ++ [n]) ++ [v] := by simp
          have hnin : n ∈ (L ++ [n]) ++ [v] := by simp
          rw [if_pos hvin, if_pos hnin]
          simp

theorem expand_runs (x : List String) :
    ∀ L, expandCatalogAliases L = L →
      expandCatalogAliases (List.foldl expandOne L x) = List.foldl expandOne L x := by
  induction x with
  | nil => intro L hI; exact hI
  | cons o t ih =>
    intro L hI
    rw [List.foldl_cons]
    exact ih _ (expand_step L o hI)

theorem expand_idem (x : List String) :
    expandCatalogAliases (expandCatalogAliases x) = expandCatalogAliases x := by
  have h0 : expandCatalogAliases ([] : List String) = [] := rfl
  exact expand_runs x [] h0

/-! ### Duplicate-freeness of the extractor output -/

theorem dedupKeepFirst_go_spec {a : Type} [DecidableEq a] (l : List a) :
    forall seen, (forall x, x ∈ dedupKeepFirst.go seen l -> x ∉ seen)
      ∧ (dedupKeepFirst.go seen l).Nodup := by
  induction l with
  | nil =>
    intro seen
    exact ⟨fun x hx => absurd hx (by simp [dedupKeepFirst.go]), by simp [dedupKeepFirst.go]⟩
  | cons x t ih =>
    intro seen
    rw [dedupKeepFirst.go]
    by_cases hx : x ∈ seen
    · rw [if_pos hx]
      exact ih seen
    · rw [if_neg hx]
      obtain ⟨ihmem, ihnd⟩ := ih (x :: seen)
      constructor
      · intro y hy hyseen
        rcases List.mem_cons.mp hy with h1 | h1
        · exact hx (h1 ▸ hyseen)
        · exact ihmem y h1 (List.mem_cons_of_mem _ hyseen)
      · refine List.nodup_cons.mpr ⟨?_, ihnd⟩
        intro hxin
        exact ihmem x hxin (List.mem_cons_self _ _)

theorem dedupKeepFirst_nodup {a : Type} [DecidableEq a] (l : List a) :
    (dedupKeepFirst l).Nodup := (dedupKeepFirst_go_spec l []).2

/-! ### Claim C1 -/

/-- C1 (code bug): the claim, the spec and the repository's own test suite
require `_extract_object_ids "AM31" = []` and `_extract_object_ids "M31A" = []`,
but the regex `(NGC|IC|M|(?<!I)(?<!NG)C)[\s_-]*0*(\d{1,5})(?!\d)` has a
lookbehind only on the bare `C` alternative and only a digit lookahead, so
the code extracts `M31` from both strings.  This theorem evaluates the
embedded extractor at the claim's two inputs, exhibiting the divergence. -/
theorem C1_extract_boundary_bug :
    extractObjectIds "AM31" = ["M31"] ∧ extractObjectIds "M31A" = ["M31"] :=
  ⟨by decide, by decide⟩

/-! ### Claim C3 -/

/-- C3: `_expand_catalog_aliases ["M42"]` contains `"NGC1976"`,
`_expand_catalog_aliases ["NGC1976"]` contains `"M42"`, and the resolver is
idempotent on every input list. -/
theorem C3_alias_roundtrip_idem :
    "NGC1976" ∈ expandCatalogAliases ["M42"]
    ∧ "M42" ∈ expandCatalogAliases ["NGC1976"]
    ∧ forall x : List String,
        expandCatalogAliases (expandCatalogAliases x) = expandCatalogAliases x :=
  ⟨by decide, by decide, expand_idem⟩

/-! ### Claim C8 -/

/-- C8: the extractor normalizes matches to canonical ids (separator
removed, leading zeros stripped, longest digit run taken whole) and its
output never contains duplicates. -/
theorem C8_extract_normalization :
    extractObjectIds "M_31_STRETCHED" = ["M31"]
    ∧ extractObjectIds "NGC 1234" = ["NGC1234"]
    ∧ extractObjectIds "IC0001" = ["IC1"]
    ∧ extractObjectIds "M3145" = ["M3145"]
    ∧ forall stem : String, (extractObjectIds stem).Nodup :=
  ⟨by decide, by decide, by decide, by decide,
   fun _ => dedupKeepFirst_nodup _⟩

-- ### lookup lemmas

theorem lookup_cons_ne {b : Type} (a k : String) (v : b) (t : List (String × b))
    (h : a ≠ k) : List.lookup a ((k, v) :: t) = List.lookup a t := by
  rw [List.lookup]
  rw [show (a == k) = false from beq_eq_false_iff_ne.mpr h]

theorem idxFind_indexAdd_self (idx : List (String × List ImgFile)) (id0 : String)
    (f : ImgFile) : idxFind (indexAdd idx id0 f) id0 = idxFind idx id0 ++ [f] := by
  induction idx with
  | nil => simp [indexAdd, idxFind]
  | cons kv t ih =>
    cases kv with
    | mk k vs =>
      rw [indexAdd]
      by_cases hk : k = id0
      · subst hk
        simp [idxFind]
      · rw [if_neg hk]
        unfold idxFind
        rw [lookup_cons_ne _ _ _ _ (Ne.symm hk), lookup_cons_ne _ _ _ _ (Ne.symm hk)]
        exact ih

theorem idxFind_indexAdd_other (idx : List (String × List ImgFile)) (id0 k0 : String)
    (f : ImgFile) (hne : k0 ≠ id0) :
    idxFind (indexAdd idx id0 f) k0 = idxFind idx k0 := by
  induction idx with
  | nil => simp [indexAdd, idxFind, lookup_cons_ne _ _ _ _ hne]
  | cons kv t ih =>
    cases kv with
    | mk k vs =>
      rw [indexAdd]
      by_cases hk : k = id0
      · subst hk
        rw [if_pos rfl]
        unfold idxFind
        rw [lookup_cons_ne _ _ _ _ hne, lookup_cons_ne _ _ _ _ hne]
      · rw [if_neg hk]
        by_cases hkk : k0 = k
        · subst hkk
          simp [idxFind]
        · unfold idxFind
          rw [lookup_cons_ne _ _ _ _ hkk, lookup_cons_ne _ _ _ _ hkk]
          exact ih

theorem seenGet_seenAdd_self (seen : List (String × List String)) (id0 : String)
    (r : String) : seenGet (seenAdd seen id0 r) id0 = seenGet seen id0 ++ [r] := by
  induction seen with
  | nil => simp [seenAdd, seenGet]
  | cons kv t ih =>
    cases kv with
    | mk k vs =>
      rw [seenAdd]
      by_cases hk : k = id0
      · subst hk
        simp [seenGet]
      · rw [if_neg hk]
        unfold seenGet
        rw [lookup_cons_ne _ _ _ _ (Ne.symm hk), lookup_cons_ne _ _ _ _ (Ne.symm hk)]
        exact ih

theorem seenGet_seenAdd_other (seen : List (String × List String)) (id0 k0 : String)
    (r : String) (hne : k0 ≠ id0) :
    seenGet (seenAdd seen id0 r) k0 = seenGet seen k0 := by
  induction seen with
  | nil => simp [seenAdd, seenGet, lookup_cons_ne _ _ _ _ hne]
  | cons kv t ih =>
    cases kv with
    | mk k vs =>
      rw [seenAdd]
      by_cases hk : k = id0
      · subst hk
        rw [if_pos rfl]
        unfold seenGet
        rw [lookup_cons_ne _ _ _ _ hne, lookup_cons_ne _ _ _ _ hne]
      · rw [if_neg hk]
        by_cases hkk : k0 = k
        · subst hkk
          simp [seenGet]
        · unfold seenGet
          rw [lookup_cons_ne _ _ _ _ hkk, lookup_cons_ne _ _ _ _ hkk]
          exact ih

theorem stInv_empty : StInv ([], []) := by
  intro id0
  constructor
  · intro f hf
    simp [idxFind, List.lookup] at hf
  · simp [idxFind, List.lookup]

theorem stInv_addFileIds (st : List (String × List ImgFile) × List (String × List String))
    (f : ImgFile) (ms : List String) (h : StInv st) : StInv (addFileIds st f ms) := by
  induction ms generalizing st with
  | nil => exact h
  | cons m t ih =>
    rw [addFileIds, List.foldl_cons]
    by_cases hm : f.resolved ∈ seenGet st.2 m
    · rw [if_pos hm]
      exact ih st h
    · rw [if_neg hm]
      refine ih _ ?_
      intro id0
      by_cases hid : id0 = m
      · subst hid
        rw [idxFind_indexAdd_self, seenGet_seenAdd_self]
        constructor
        · intro g hg
          rcases List.mem_append.mp hg with h1 | h1
          · exact List.mem_append_left _ ((h id0).1 g h1)
          · rw [List.mem_singleton.mp h1]
            exact List.mem_append_right _ (by simp)
        · rw [List.map_append]
          refine List.Nodup.append (h id0).2 (by simp) ?_
          intro r hr1 hr2
          simp only [List.map_cons, List.map_nil, List.mem_singleton] at hr2
          subst hr2
          rcases List.mem_map.mp hr1 with ⟨g, hg, hgr⟩
          exact hm (hgr ▸ (h id0).1 g hg)
      · rw [idxFind_indexAdd_other _ _ _ _ hid, seenGet_seenAdd_other _ _ _ _ hid]
        exact h id0

-- ### invariant through the fold, C7 shape

theorem stInv_buildStep (exts : List String)
    (st : List (String × List ImgFile) × List (String × List String))
    (f : ImgFile) (h : StInv st) : StInv (buildStep exts st f) := by
  unfold buildStep
  by_cases h1 : keepExt exts f
  · rw [if_pos h1]
    by_cases h2 : (fileMatches f).isEmpty
    · simp only [h2, if_true]
      exact h
    · simp only [h2, if_false]
      exact stInv_addFileIds _ _ _ h
  · rw [if_neg h1]
    exact h

theorem stInv_fold (exts : List String) (files : List ImgFile) :
    StInv (files.foldl (buildStep exts) ([], [])) := by
  have hgen : ∀ (fs : List ImgFile) st, StInv st → StInv (fs.foldl (buildStep exts) st) := by
    intro fs
    induction fs with
    | nil => intro st h; exact h
    | cons f t ih =>
      intro st h
      rw [List.foldl_cons]
      exact ih _ (stInv_buildStep exts st f h)
  exact hgen files ([], []) stInv_empty

-- ### sorting lemmas

theorem insertOrd_perm {α : Type} (le : α → α → Bool) (x : α) (l : List α) :
    (insertOrd le x l).Perm (x :: l) := by
  induction l with
  | nil => exact List.Perm.refl _
  | cons y t ih =>
    rw [insertOrd]
    by_cases hle : le y x
    · rw [if_pos hle]
      exact (ih.cons y).trans (List.Perm.swap x y t)
    · rw [if_neg hle]

theorem sortByStable_perm {α : Type} (le : α → α → Bool) (l : List α) :
    (sortByStable le l).Perm l := by
  have hgen : ∀ (t : List α) (acc : List α),
      (t.foldl (fun acc x => insertOrd le x acc) acc).Perm (acc ++ t) := by
    intro t
    induction t with
    | nil => intro acc; simp
    | cons x t2 ih =>
      intro acc
      rw [List.foldl_cons]
      refine ((ih (insertOrd le x acc)).trans ?_)
      have h1 : (insertOrd le x acc ++ t2).Perm ((x :: acc) ++ t2) :=
        (insertOrd_perm le x acc).append_right t2
      refine h1.trans ?_
      exact (List.perm_middle).symm
  simpa using hgen l []

theorem idxFind_mapSort (idx : List (String × List ImgFile)) (id0 : String) :
    idxFind (idx.map (fun kv => (kv.1, sortByStable fileKeyLe kv.2))) id0
      = sortByStable fileKeyLe (idxFind idx id0) := by
  induction idx with
  | nil => simp [idxFind, sortByStable]
  | cons kv t ih =>
    cases kv with
    | mk k vs =>
      by_cases hk : id0 = k
      · subst hk
        simp [idxFind]
      · simp only [List.map_cons]
        unfold idxFind
        rw [lookup_cons_ne _ _ _ _ hk, lookup_cons_ne _ _ _ _ hk]
        exact ih

theorem pairwise_ne_resolved (exts : List String) (files : List ImgFile) (id0 : String) :
    (idxFind (buildImageIndex exts files) id0).Pairwise
      (fun a b => a.resolved ≠ b.resolved) := by
  have hinv := stInv_fold exts files
  have hnd := (hinv id0).2
  rw [buildImageIndex, idxFind_mapSort]
  have hperm : (sortByStable fileKeyLe
      (idxFind (files.foldl (buildStep exts) ([], [])).1 id0)).Perm
      (idxFind (files.foldl (buildStep exts) ([], [])).1 id0) :=
    sortByStable_perm _ _
  have hnd2 : ((sortByStable fileKeyLe
      (idxFind (files.foldl (buildStep exts) ([], [])).1 id0)).map
        (fun f => f.resolved)).Nodup :=
    ((hperm.map (fun f => f.resolved)).nodup_iff).mpr hnd
  have := (List.pairwise_map).mp hnd2
  exact this

theorem stExact_empty : StExact ([], []) := by
  intro id0
  simp [seenGet, idxFind]

theorem addFileIds_cons (st : List (String × List ImgFile) × List (String × List String))
    (f : ImgFile) (m : String) (t : List String) :
    addFileIds st f (m :: t) =
      addFileIds
        (if f.resolved ∈ seenGet st.2 m then st
         else (indexAdd st.1 m f, seenAdd st.2 m f.resolved)) f t := by
  rw [addFileIds, List.foldl_cons]
  rfl

theorem addFileIds_char (f : ImgFile) :
    ∀ (ms : List String) (st), StExact st →
      StExact (addFileIds st f ms)
      ∧ (∀ id0, idxFind (addFileIds st f ms).1 id0
          = idxFind st.1 id0 ++
            (if id0 ∈ ms ∧ f.resolved ∉ seenGet st.2 id0 then [f] else []))
      ∧ (∀ g r, r ∈ seenGet (addFileIds st f ms).2 g →
          r ∈ seenGet st.2 g ∨ r = f.resolved) := by
  intro ms
  induction ms with
  | nil =>
    intro st hex
    refine ⟨hex, ?_, ?_⟩
    · intro id0
      simp [addFileIds]
    · intro g r hr
      exact Or.inl hr
  | cons m t ih =>
    intro st hex
    rw [addFileIds_cons]
    by_cases hm : f.resolved ∈ seenGet st.2 m
    · rw [if_pos hm]
      obtain ⟨hex', hidx, hseen⟩ := ih st hex
      refine ⟨hex', ?_, hseen⟩
      intro id0
      rw [hidx id0]
      congr 1
      by_cases hid : id0 = m
      · subst hid
        simp [hm]
      · simp [List.mem_cons, hid]
    · rw [if_neg hm]
      have hex2 : StExact (indexAdd st.1 m f, seenAdd st.2 m f.resolved) := by
        intro id0
        by_cases hid : id0 = m
        · subst hid
          show seenGet (seenAdd st.2 id0 f.resolved) id0
            = (idxFind (indexAdd st.1 id0 f) id0).map (fun g => g.resolved)
          rw [seenGet_seenAdd_self, idxFind_indexAdd_self, List.map_append, hex id0]
          rfl
        · show seenGet (seenAdd st.2 m f.resolved) id0
            = (idxFind (indexAdd st.1 m f) id0).map (fun g => g.resolved)
          rw [seenGet_seenAdd_other _ _ _ _ hid, idxFind_indexAdd_other _ _ _ _ hid]
          exact hex id0
      obtain ⟨hex', hidx, hseen⟩ := ih _ hex2
      refine ⟨hex', ?_, ?_⟩
      · intro id0
        rw [hidx id0]
        by_cases hid : id0 = m
        · subst hid
          rw [idxFind_indexAdd_self]
          have hcond2 : ¬ (id0 ∈ t ∧ f.resolved ∉ seenGet (seenAdd st.2 id0 f.resolved) id0) := by
            rw [seenGet_seenAdd_self]
            intro hc
            exact hc.2 (by simp)
          rw [if_neg hcond2, if_pos ⟨List.mem_cons_self _ _, hm⟩, List.append_nil]
        · rw [idxFind_indexAdd_other _ _ _ _ hid]
          have hseeneq : seenGet (seenAdd st.2 m f.resolved) id0 = seenGet st.2 id0 :=
            seenGet_seenAdd_other _ _ _ _ hid
          rw [hseeneq]
          congr 1
          simp [List.mem_cons, hid]
      · intro g r hr
        rcases hseen g r hr with h1 | h1
        · by_cases hid : g = m
          · subst hid
            rw [seenGet_seenAdd_self] at h1
            rcases List.mem_append.mp h1 with h2 | h2
            · exact Or.inl h2
            · exact Or.inr (List.mem_singleton.mp h2)
          · rw [seenGet_seenAdd_other _ _ _ _ hid] at h1
            exact Or.inl h1
        · exact Or.inr h1

theorem buildStep_skip (exts : List String)
    (st : List (String × List ImgFile) × List (String × List String)) (f : ImgFile)
    (hk : ¬ keepExt exts f = true) : buildStep exts st f = st := by
  unfold buildStep
  rw [if_neg hk]

theorem buildStep_keep_empty (exts : List String)
    (st : List (String × List ImgFile) × List (String × List String)) (f : ImgFile)
    (hk : keepExt exts f = true) (hemp : (fileMatches f).isEmpty = true) :
    buildStep exts st f = st := by
  unfold buildStep
  rw [if_pos hk]
  simp only [hemp, if_true]

theorem buildStep_keep_add (exts : List String)
    (st : List (String × List ImgFile) × List (String × List String)) (f : ImgFile)
    (hk : keepExt exts f = true) (hemp : ¬ (fileMatches f).isEmpty = true) :
    buildStep exts st f = addFileIds st f (fileMatches f) := by
  unfold buildStep
  rw [if_pos hk]
  simp [hemp]

theorem build_fold_char (exts : List String) :
    ∀ (files : List ImgFile) (st),
      StExact st →
      (∀ g r, r ∈ seenGet st.2 g → ¬ (r ∈ files.map (fun f => f.resolved))) →
      (files.map (fun f => f.resolved)).Nodup →
      ∀ id0, idxFind ((files.foldl (buildStep exts) st).1) id0
        = idxFind st.1 id0
            ++ files.filter (fun f => keepExt exts f && (fileMatches f).contains id0) := by
  intro files
  induction files with
  | nil =>
    intro st _ _ _ id0
    simp
  | cons f fs ih =>
    intro st hex hfut hnd id0
    rw [List.foldl_cons]
    have hndtail : (fs.map (fun f => f.resolved)).Nodup := by
      simp only [List.map_cons, List.nodup_cons] at hnd
      exact hnd.2
    have hfreshhead : ¬ f.resolved ∈ fs.map (fun f => f.resolved) := by
      simp only [List.map_cons, List.nodup_cons] at hnd
      exact hnd.1
    by_cases hk : keepExt exts f
    · by_cases hemp : (fileMatches f).isEmpty
      · rw [buildStep_keep_empty exts st f hk hemp]
        have hms : fileMatches f = [] := List.isEmpty_iff.mp hemp
        rw [ih st hex (fun g r hr => fun hin =>
          hfut g r hr (List.mem_cons_of_mem _ hin)) hndtail id0]
        rw [List.filter_cons]
        have : (keepExt exts f && (fileMatches f).contains id0) = false := by
          rw [hms]
          simp
        rw [this]
        simp
      · rw [buildStep_keep_add exts st f hk hemp]
        obtain ⟨hex1, hidx1, hseen1⟩ := addFileIds_char f (fileMatches f) st hex
        have hfut1 : ∀ g r, r ∈ seenGet (addFileIds st f (fileMatches f)).2 g →
            ¬ (r ∈ fs.map (fun f => f.resolved)) := by
          intro g r hr
          rcases hseen1 g r hr with h1 | h1
          · exact fun hin => hfut g r h1 (List.mem_cons_of_mem _ hin)
          · rw [h1]
            exact hfreshhead
        rw [ih _ hex1 hfut1 hndtail id0]
        rw [hidx1 id0]
        have hfresh0 : ¬ f.resolved ∈ seenGet st.2 id0 := by
          intro hin
          exact hfut id0 f.resolved hin (by simp)
        rw [List.filter_cons]
        by_cases hidin : id0 ∈ fileMatches f
        · have hcond : id0 ∈ fileMatches f ∧ ¬ f.resolved ∈ seenGet st.2 id0 :=
            ⟨hidin, hfresh0⟩
          rw [if_pos hcond]
          have : (keepExt exts f && (fileMatches f).contains id0) = true := by
            rw [hk]
            simpa using hidin
          rw [this]
          simp
        · have hcond : ¬ (id0 ∈ fileMatches f ∧ ¬ f.resolved ∈ seenGet st.2 id0) :=
            fun hc => hidin hc.1
          rw [if_neg hcond]
          have : (keepExt exts f && (fileMatches f).contains id0) = false := by
            simp [hidin]
          rw [this]
          simp
    · rw [buildStep_skip exts st f hk]
      rw [ih st hex (fun g r hr => fun hin =>
        hfut g r hr (List.mem_cons_of_mem _ hin)) hndtail id0]
      rw [List.filter_cons]
      have : (keepExt exts f && (fileMatches f).contains id0) = false := by
        simp [hk]
      rw [this]
      simp

theorem buildIndex_char (exts : List String) (files : List ImgFile)
    (hnd : (files.map (fun f => f.resolved)).Nodup) (id0 : String) :
    idxFind (buildImageIndex exts files) id0
      = sortByStable fileKeyLe
          (files.filter (fun f => keepExt exts f && (fileMatches f).contains id0)) := by
  rw [buildImageIndex, idxFind_mapSort]
  congr 1
  have h := build_fold_char exts files ([], []) stExact_empty
    (by
      intro g r hr
      simp [seenGet] at hr) hnd id0
  simpa [idxFind] using h

-- ### sortedness and uniqueness of the stable sort

theorem insertOrd_pairwise {α : Type} (le : α → α → Bool)
    (htot : ∀ a b, le a b = true ∨ le b a = true)
    (htr : ∀ a b c, le a b = true → le b c = true → le a c = true)
    (x : α) (l : List α) (h : l.Pairwise (fun a b => le a b = true)) :
    (insertOrd le x l).Pairwise (fun a b => le a b = true) := by
  induction l with
  | nil => simp [insertOrd]
  | cons y t ih =>
    rw [insertOrd]
    obtain ⟨hy, ht⟩ := List.pairwise_cons.mp h
    by_cases hle : le y x
    · rw [if_pos hle]
      refine List.pairwise_cons.mpr ⟨?_, ih ht⟩
      intro z hz
      have hz2 : z = x ∨ z ∈ t :=
        List.mem_cons.mp ((insertOrd_perm le x t).mem_iff.mp hz)
      rcases hz2 with rfl | hzt
      · exact hle
      · exact hy z hzt
    · rw [if_neg hle]
      have hxy : le x y = true := (htot x y).resolve_right (by simpa using hle)
      refine List.pairwise_cons.mpr ⟨?_, h⟩
      intro z hz
      rcases List.mem_cons.mp hz with rfl | hzt
      · exact hxy
      · exact htr x y z hxy (hy z hzt)

theorem sortByStable_pairwise {α : Type} (le : α → α → Bool)
    (htot : ∀ a b, le a b = true ∨ le b a = true)
    (htr : ∀ a b c, le a b = true → le b c = true → le a c = true)
    (l : List α) :
    (sortByStable le l).Pairwise (fun a b => le a b = true) := by
  have hgen : ∀ (t acc : List α), acc.Pairwise (fun a b => le a b = true) →
      (t.foldl (fun acc x => insertOrd le x acc) acc).Pairwise
        (fun a b => le a b = true) := by
    intro t
    induction t with
    | nil => intro acc h; exact h
    | cons x t2 ih =>
      intro acc h
      rw [List.foldl_cons]
      exact ih _ (insertOrd_pairwise le htot htr x acc h)
  exact hgen l [] (List.Pairwise.nil)

/-- Two sorted permutations of each other with pairwise-distinct keys are
equal (the key function witnesses antisymmetry of `le`). -/
theorem sorted_perm_eq {α : Type} (le : α → α → Bool) (key : α → String)
    (hanti : ∀ a b, le a b = true → le b a = true → key a = key b) :
    ∀ (l₁ l₂ : List α), l₁.Perm l₂ →
      l₁.Pairwise (fun a b => le a b = true) →
      l₂.Pairwise (fun a b => le a b = true) →
      (l₁.map key).Nodup → l₁ = l₂ := by
  intro l₁
  induction l₁ with
  | nil =>
    intro l₂ hp _ _ _
    exact (hp.nil_eq).symm ▸ rfl
  | cons a t₁ ih =>
    intro l₂ hp hs₁ hs₂ hnd
    cases l₂ with
    | nil =>
      have := hp.length_eq
      simp at this
    | cons b t₂ =>
      obtain ⟨ha1, hs₁t⟩ := List.pairwise_cons.mp hs₁
      obtain ⟨hb1, hs₂t⟩ := List.pairwise_cons.mp hs₂
      have hndh : key a ∉ (t₁.map key) := by
        simp only [List.map_cons, List.nodup_cons] at hnd
        exact hnd.1
      have hndt : (t₁.map key).Nodup := by
        simp only [List.map_cons, List.nodup_cons] at hnd
        exact hnd.2
      have hab : a = b := by
        have hbin : b ∈ a :: t₁ := hp.mem_iff.mpr (List.mem_cons_self b t₂)
        rcases List.mem_cons.mp hbin with h1 | h1
        · exact h1.symm
        · have hain : a ∈ b :: t₂ := hp.mem_iff.mp (List.mem_cons_self a t₁)
          rcases List.mem_cons.mp hain with h2 | h2
          · exact h2
          · have hle1 : le a b = true := ha1 b h1
            have hle2 : le b a = true := hb1 a h2
            have hkey : key a = key b := hanti a b hle1 hle2
            exact absurd (hkey ▸ List.mem_map_of_mem key h1) hndh
      subst hab
      have ht : t₁.Perm t₂ := hp.cons_inv
      rw [ih t₂ ht hs₁t hs₂t hndt]

theorem pairwise_imp_mem {α : Type} {R S : α → α → Prop} :
    ∀ {l : List α}, (∀ a b, a ∈ l → b ∈ l → R a b → S a b) → l.Pairwise R → l.Pairwise S := by
  intro l
  induction l with
  | nil => intro _ _; exact List.Pairwise.nil
  | cons x t ih =>
    intro himp hp
    obtain ⟨hx, ht⟩ := List.pairwise_cons.mp hp
    refine List.pairwise_cons.mpr ⟨?_, ?_⟩
    · intro y hy
      exact himp x y (List.mem_cons_self _ _) (List.mem_cons_of_mem _ hy) (hx y hy)
    · exact ih (fun a b ha hb => himp a b (List.mem_cons_of_mem _ ha)
        (List.mem_cons_of_mem _ hb)) ht

theorem build_deterministic (exts : List String) (files₁ files₂ : List ImgFile)
    (hperm : files₁.Perm files₂)
    (hnd : (files₁.map (fun f => f.resolved)).Nodup)
    (htie : ∀ f g, f ∈ files₁ → g ∈ files₁ → f ≠ g →
      (∃ id0, id0 ∈ fileMatches f ∧ id0 ∈ fileMatches g) →
      lowerStr f.name ≠ lowerStr g.name)
    (htot : ∀ a b : ImgFile, fileKeyLe a b = true ∨ fileKeyLe b a = true)
    (htr : ∀ a b c : ImgFile, fileKeyLe a b = true → fileKeyLe b c = true →
      fileKeyLe a c = true)
    (hanti : ∀ a b : ImgFile, fileKeyLe a b = true → fileKeyLe b a = true →
      lowerStr a.name = lowerStr b.name)
    (id0 : String) :
    idxFind (buildImageIndex exts files₁) id0
      = idxFind (buildImageIndex exts files₂) id0 := by
  have hnd₂ : (files₂.map (fun f => f.resolved)).Nodup :=
    ((hperm.map (fun f => f.resolved)).nodup_iff).mp hnd
  rw [buildIndex_char exts files₁ hnd id0, buildIndex_char exts files₂ hnd₂ id0]
  have hpf : (files₁.filter (fun f => keepExt exts f && (fileMatches f).contains id0)).Perm
      (files₂.filter (fun f => keepExt exts f && (fileMatches f).contains id0)) :=
    hperm.filter _
  have hfnd : (files₁.filter (fun f => keepExt exts f && (fileMatches f).contains id0)).Nodup :=
    (List.Nodup.of_map _ hnd).filter _
  have hkeys : ((files₁.filter (fun f => keepExt exts f && (fileMatches f).contains id0)).map
      (fun f => lowerStr f.name)).Nodup := by
    have hpne : (files₁.filter (fun f => keepExt exts f && (fileMatches f).contains id0)).Pairwise
        (fun f g => lowerStr f.name ≠ lowerStr g.name) := by
      refine pairwise_imp_mem ?_ hfnd
      intro a b ha hb hne
      have hpa := (List.mem_filter.mp ha).2
      have hpb := (List.mem_filter.mp hb).2
      rw [Bool.and_eq_true] at hpa hpb
      refine htie a b (List.mem_of_mem_filter ha) (List.mem_of_mem_filter hb) hne ?_
      refine ⟨id0, ?_, ?_⟩
      · have := hpa.2
        simpa [List.contains] using this
      · have := hpb.2
        simpa [List.contains] using this
    exact (List.pairwise_map).mpr hpne
  have hsp₁ := sortByStable_perm fileKeyLe
    (files₁.filter (fun f => keepExt exts f && (fileMatches f).contains id0))
  have hsp₂ := sortByStable_perm fileKeyLe
    (files₂.filter (fun f => keepExt exts f && (fileMatches f).contains id0))
  refine sorted_perm_eq fileKeyLe (fun f => lowerStr f.name) hanti _ _
    (hsp₁.trans (hpf.trans hsp₂.symm))
    (sortByStable_pairwise fileKeyLe htot htr _)
    (sortByStable_pairwise fileKeyLe htot htr _)
    ?_
  exact ((hsp₁.map (fun f => lowerStr f.name)).nodup_iff).mpr hkeys

/-! ### The string order model is a total preorder -/

theorem charListLe_total : ∀ a b : List Char, charListLe a b = true ∨ charListLe b a = true := by
  intro a
  induction a with
  | nil => intro b; exact Or.inl rfl
  | cons c as ih =>
    intro b
    cases b with
    | nil => exact Or.inr rfl
    | cons d bs =>
      rw [charListLe, charListLe]
      rcases Nat.lt_trichotomy c.toNat d.toNat with h | h | h
      · exact Or.inl (by rw [if_pos h])
      · have h1 : ¬ c.toNat < d.toNat := by omega
        have h2 : ¬ d.toNat < c.toNat := by omega
        rw [if_neg h1, if_neg h2, if_neg h2, if_neg h1]
        exact ih bs
      · exact Or.inr (by rw [if_pos h])

theorem charListLe_trans : ∀ a b c : List Char,
    charListLe a b = true → charListLe b c = true → charListLe a c = true := by
  intro a
  induction a with
  | nil => intro b c _ _; rfl
  | cons x as ih =>
    intro b c hab hbc
    cases b with
    | nil => rw [charListLe] at hab; exact absurd hab (by simp)
    | cons y bs =>
      cases c with
      | nil => rw [charListLe] at hbc; exact absurd hbc (by simp)
      | cons z cs =>
        rw [charListLe] at hab hbc ⊢
        rcases Nat.lt_trichotomy x.toNat y.toNat with h1 | h1 | h1
        · rcases Nat.lt_trichotomy y.toNat z.toNat with h2 | h2 | h2
          · rw [if_pos (Nat.lt_trans h1 h2)]
          · rw [if_pos (h2 ▸ h1)]
          · rw [if_neg (by omega), if_pos h2] at hbc
            exact absurd hbc (by simp)
        · rw [if_neg (by omega), if_neg (by omega)] at hab
          rcases Nat.lt_trichotomy y.toNat z.toNat with h2 | h2 | h2
          · rw [if_pos (by omega)]
          · rw [if_neg (by omega), if_neg (by omega)] at hbc
            rw [if_neg (by omega : ¬ x.toNat < z.toNat),
              if_neg (by omega : ¬ z.toNat < x.toNat)]
            exact ih bs cs hab hbc
          · rw [if_neg (by omega), if_pos h2] at hbc
            exact absurd hbc (by simp)
        · rw [if_neg (by omega), if_pos h1] at hab
          exact absurd hab (by simp)

theorem charListLe_antisymm : ∀ a b : List Char,
    charListLe a b = true → charListLe b a = true → a = b := by
  intro a
  induction a with
  | nil =>
    intro b hab hba
    cases b with
    | nil => rfl
    | cons d bs => rw [charListLe] at hba; exact absurd hba (by simp)
  | cons x as ih =>
    intro b hab hba
    cases b with
    | nil => rw [charListLe] at hab; exact absurd hab (by simp)
    | cons y bs =>
      rw [charListLe] at hab hba
      rcases Nat.lt_trichotomy x.toNat y.toNat with h1 | h1 | h1
      · rw [if_neg (by omega), if_pos h1] at hba
        exact absurd hba (by simp)
      · rw [if_neg (by omega), if_neg (by omega)] at hab
        rw [if_neg (by omega), if_neg (by omega)] at hba
        have hc : x = y := Char.eq_of_val_eq (UInt32.toNat.inj h1)
        rw [hc, ih bs hab hba]
      · rw [if_neg (by omega), if_pos h1] at hab
        exact absurd hab (by simp)

theorem strLeB_antisymm (a b : String) (h1 : strLeB a b = true)
    (h2 : strLeB b a = true) : a = b := by
  cases a with
  | mk da =>
    cases b with
    | mk db =>
      exact congrArg String.mk (charListLe_antisymm da db h1 h2)

theorem fileKeyLe_total (a b : ImgFile) : fileKeyLe a b = true ∨ fileKeyLe b a = true :=
  charListLe_total _ _

theorem fileKeyLe_trans (a b c : ImgFile) (h1 : fileKeyLe a b = true)
    (h2 : fileKeyLe b c = true) : fileKeyLe a c = true :=
  charListLe_trans _ _ _ h1 h2

theorem fileKeyLe_antisymm (a b : ImgFile) (h1 : fileKeyLe a b = true)
    (h2 : fileKeyLe b a = true) : lowerStr a.name = lowerStr b.name :=
  strLeB_antisymm _ _ h1 h2

/-! ### Claims C6 and C7 -/

/-- C6 (counterexample): the index is **not** the same for every walk
enumeration order.  Two files of one directory whose names differ only in
case carry the same ids and the same case-insensitive sort key, and the
stable sort keeps them in enumeration order, so the two orders of the same
two files give different indexes. -/
theorem C6_walk_order_counterexample :
    (([⟨"D", "M31.JPG", "/lib/M31.JPG"⟩, ⟨"D", "m31.jpg", "/lib/m31.jpg"⟩] : List ImgFile)).Perm
      [⟨"D", "m31.jpg", "/lib/m31.jpg"⟩, ⟨"D", "M31.JPG", "/lib/M31.JPG"⟩]
    ∧ idxFind (buildImageIndex [".jpg"]
        [⟨"D", "M31.JPG", "/lib/M31.JPG"⟩, ⟨"D", "m31.jpg", "/lib/m31.jpg"⟩]) "M31"
      ≠ idxFind (buildImageIndex [".jpg"]
        [⟨"D", "m31.jpg", "/lib/m31.jpg"⟩, ⟨"D", "M31.JPG", "/lib/M31.JPG"⟩]) "M31" :=
  ⟨by decide, by decide⟩

/-- C6 (amended): every id's path list is sorted case-insensitively by
filename, and the index is independent of the enumeration order of the walk
provided the walked files have pairwise-distinct resolved paths and no two
distinct files sharing an extracted id tie on the case-insensitive filename
key (on a tie the stable sort keeps enumeration order, as the
counterexample shows). -/
theorem C6_sorted_and_order_independent :
    (∀ (exts : List String) (files : List ImgFile) (id0 : String),
      (idxFind (buildImageIndex exts files) id0).Pairwise
        (fun a b => fileKeyLe a b = true))
    ∧ (∀ (exts : List String) (files₁ files₂ : List ImgFile),
        files₁.Perm files₂ →
        (files₁.map (fun f => f.resolved)).Nodup →
        (∀ f g, f ∈ files₁ → g ∈ files₁ → f ≠ g →
          (∃ id0, id0 ∈ fileMatches f ∧ id0 ∈ fileMatches g) →
          lowerStr f.name ≠ lowerStr g.name) →
        ∀ id0, idxFind (buildImageIndex exts files₁) id0
          = idxFind (buildImageIndex exts files₂) id0) := by
  constructor
  · intro exts files id0
    rw [buildImageIndex, idxFind_mapSort]
    exact sortByStable_pairwise fileKeyLe fileKeyLe_total fileKeyLe_trans _
  · intro exts files₁ files₂ hperm hnd htie id0
    exact build_deterministic exts files₁ files₂ hperm hnd htie
      fileKeyLe_total fileKeyLe_trans fileKeyLe_antisymm id0

/-- Witness for the amended C6 at a concrete input: two distinct files in
either enumeration order give the same index entry. -/
theorem C6_sorted_and_order_independent_witness :
    idxFind (buildImageIndex [".jpg"]
      [⟨"D", "M31.jpg", "/lib/M31.jpg"⟩, ⟨"D", "M32.jpg", "/lib/M32.jpg"⟩]) "M31"
    = idxFind (buildImageIndex [".jpg"]
      [⟨"D", "M32.jpg", "/lib/M32.jpg"⟩, ⟨"D", "M31.jpg", "/lib/M31.jpg"⟩]) "M31" :=
  C6_sorted_and_order_independent.2 [".jpg"]
    [⟨"D", "M31.jpg", "/lib/M31.jpg"⟩, ⟨"D", "M32.jpg", "/lib/M32.jpg"⟩]
    [⟨"D", "M32.jpg", "/lib/M32.jpg"⟩, ⟨"D", "M31.jpg", "/lib/M31.jpg"⟩]
    (by decide) (by decide)
    (fun f g hf hg hne _ => by
      simp only [List.mem_cons, List.not_mem_nil, or_false] at hf hg
      rcases hf with rfl | rfl <;> rcases hg with rfl | rfl
      · exact absurd rfl hne
      · decide
      · decide
      · exact absurd rfl hne)
    "M31"

/-- C7: in the built image index no two entries of one id's path list
resolve to the same absolute path, and two walked files resolving to the
same absolute path under the same id contribute exactly one entry. -/
theorem C7_no_duplicate_resolved :
    (∀ (exts : List String) (files : List ImgFile) (id0 : String),
      (idxFind (buildImageIndex exts files) id0).Pairwise
        (fun a b => a.resolved ≠ b.resolved))
    ∧ idxFind (buildImageIndex [".jpg"]
        [⟨"D", "M31.jpg", "/lib/M31.jpg"⟩, ⟨"E", "M31.jpg", "/lib/M31.jpg"⟩]) "M31"
      = [⟨"D", "M31.jpg", "/lib/M31.jpg"⟩] :=
  ⟨pairwise_ne_resolved, by decide⟩

/-! ### Claim C4: the duplicate detector -/

theorem strLeB_total (a b : String) : strLeB a b = true ∨ strLeB b a = true :=
  charListLe_total _ _

theorem strLeB_trans (a b c : String) (h1 : strLeB a b = true)
    (h2 : strLeB b c = true) : strLeB a c = true :=
  charListLe_trans _ _ _ h1 h2

theorem sortStrings_mem (l : List String) (x : String) :
    x ∈ sortStrings l ↔ x ∈ l :=
  (sortByStable_perm strLeB l).mem_iff

theorem sortStrings_nodup (l : List String) (h : l.Nodup) : (sortStrings l).Nodup :=
  ((sortByStable_perm strLeB l).nodup_iff).mpr h

theorem sortStrings_sorted (l : List String) :
    (sortStrings l).Pairwise (fun a b => strLeB a b = true) :=
  sortByStable_pairwise strLeB strLeB_total strLeB_trans l

theorem extractIdsDup_nodup (s : String) : (extractIdsDup s).Nodup :=
  sortStrings_nodup _ (dedupKeepFirst_nodup _)

theorem interAll_fold_mem (x : String) :
    ∀ (rest : List (List String)) (acc : List String),
      (x ∈ rest.foldl (fun acc t => acc.filter (fun y => t.contains y)) acc
        ↔ x ∈ acc ∧ ∀ t ∈ rest, x ∈ t) := by
  intro rest
  induction rest with
  | nil => intro acc; simp
  | cons t ts ih =>
    intro acc
    rw [List.foldl_cons, ih]
    constructor
    · rintro ⟨hmem, hall⟩
      obtain ⟨h1, h2⟩ := List.mem_filter.mp hmem
      refine ⟨h1, ?_⟩
      intro u hu
      rcases List.mem_cons.mp hu with rfl | hu2
      · simpa [List.contains] using h2
      · exact hall u hu2
    · rintro ⟨hmem, hall⟩
      refine ⟨List.mem_filter.mpr ⟨hmem, ?_⟩, ?_⟩
      · simpa [List.contains] using hall t (List.mem_cons_self _ _)
      · intro u hu
        exact hall u (List.mem_cons_of_mem _ hu)

theorem interAll_mem (x : String) (s0 : List String) (rest : List (List String)) :
    x ∈ interAll (s0 :: rest) ↔ x ∈ s0 ∧ ∀ t ∈ rest, x ∈ t := by
  rw [interAll]
  exact interAll_fold_mem x rest s0

theorem interAll_fold_nodup :
    ∀ (rest : List (List String)) (acc : List String), acc.Nodup →
      (rest.foldl (fun acc t => acc.filter (fun y => t.contains y)) acc).Nodup := by
  intro rest
  induction rest with
  | nil => intro acc h; exact h
  | cons t ts ih =>
    intro acc h
    rw [List.foldl_cons]
    exact ih _ (h.filter _)

theorem commonIdsOf_mem (x : String) (s0 : List String) (rest : List (List String)) :
    x ∈ commonIdsOf (s0 :: rest) ↔ x ∈ s0 ∧ ∀ t ∈ rest, x ∈ t := by
  unfold commonIdsOf
  by_cases hall : ((s0 :: rest).all (fun s => !s.isEmpty)) = true
  · rw [if_pos hall, sortStrings_mem, interAll_mem]
  · rw [if_neg hall]
    simp only [List.not_mem_nil, false_iff]
    rintro ⟨h1, h2⟩
    rw [List.all_eq_true] at hall
    push_neg at hall
    obtain ⟨t, ht, htf⟩ := hall
    have htf2 : t = [] := by simpa using htf
    rcases List.mem_cons.mp ht with rfl | ht2
    · rw [htf2] at h1
      exact absurd h1 (List.not_mem_nil x)
    · have hx2 := h2 t ht2
      rw [htf2] at hx2
      exact absurd hx2 (List.not_mem_nil x)

theorem commonIdsOf_sorted (idSets : List (List String)) :
    (commonIdsOf idSets).Pairwise (fun a b => strLeB a b = true) := by
  unfold commonIdsOf
  split
  · exact sortStrings_sorted _
  · exact List.Pairwise.nil

theorem commonIdsOf_nodup (s0 : List String) (rest : List (List String))
    (hnd : s0.Nodup) : (commonIdsOf (s0 :: rest)).Nodup := by
  unfold commonIdsOf
  split
  · refine sortStrings_nodup _ ?_
    rw [interAll]
    exact interAll_fold_nodup _ _ hnd
  · exact List.nodup_nil

/-- C4: for a set of files sharing one digest with more than one file, a
group is emitted iff the intersection of all files' extracted id sets is
non-empty, and the emitted `common_ids` is exactly that intersection,
sorted and duplicate-free; in particular disjoint id sets give no group. -/
theorem C4_duplicate_group_iff_common (catalog digest : String) (stems : List String)
    (hlen : 2 ≤ stems.length) :
    ((processGroup catalog digest stems).isSome
      ↔ ∃ x, ∀ s ∈ stems, x ∈ extractIdsDup s)
    ∧ (∀ g, processGroup catalog digest stems = some g →
        (∀ x, x ∈ g.common_ids ↔ ∀ s ∈ stems, x ∈ extractIdsDup s)
        ∧ g.common_ids.Pairwise (fun a b => strLeB a b = true)
        ∧ g.common_ids.Nodup) := by
  cases stems with
  | nil => simp at hlen
  | cons s0 ss =>
    have hnotshort : ¬ (s0 :: ss).length ≤ 1 := by
      simp only [List.length_cons] at hlen ⊢
      omega
    have hsets : (((s0 :: ss).map (fun s => (s, extractIdsDup s))).map (fun it => it.2))
        = extractIdsDup s0 :: ss.map (fun s => extractIdsDup s) := by
      rw [List.map_map]
      simp
    have hmemiff : ∀ x : String,
        x ∈ commonIdsOf (((s0 :: ss).map (fun s => (s, extractIdsDup s))).map
          (fun it => it.2))
        ↔ ∀ s ∈ (s0 :: ss), x ∈ extractIdsDup s := by
      intro x
      rw [hsets, commonIdsOf_mem]
      constructor
      · rintro ⟨h1, h2⟩
        intro s hs
        rcases List.mem_cons.mp hs with rfl | hs2
        · exact h1
        · exact h2 _ (List.mem_map_of_mem _ hs2)
      · intro h
        refine ⟨h s0 (List.mem_cons_self _ _), ?_⟩
        intro t ht
        obtain ⟨s, hs, rfl⟩ := List.mem_map.mp ht
        exact h s (List.mem_cons_of_mem _ hs)
    unfold processGroup
    rw [if_neg hnotshort]
    simp only
    by_cases hempty : (commonIdsOf (((s0 :: ss).map (fun s => (s, extractIdsDup s))).map
        (fun it => it.2))).isEmpty = true
    · rw [if_pos hempty]
      rw [List.isEmpty_iff] at hempty
      constructor
      · simp only [Option.isSome_none, Bool.false_eq_true, false_iff]
        rintro ⟨x, hx⟩
        have hxin := (hmemiff x).mpr hx
        rw [hempty] at hxin
        exact absurd hxin (List.not_mem_nil x)
      · intro g hg
        exact absurd hg (by simp)
    · rw [if_neg hempty]
      constructor
      · simp only [Option.isSome_some, true_iff]
        have hne : commonIdsOf (((s0 :: ss).map (fun s => (s, extractIdsDup s))).map
            (fun it => it.2)) ≠ [] := by
          intro hnil
          rw [← List.isEmpty_iff] at hnil
          exact hempty hnil
        obtain ⟨x, hx⟩ := List.exists_mem_of_ne_nil _ hne
        exact ⟨x, (hmemiff x).mp hx⟩
      · intro g hg
        simp only [Option.some_inj] at hg
        subst hg
        refine ⟨hmemiff, commonIdsOf_sorted _, ?_⟩
        rw [hsets]
        exact commonIdsOf_nodup _ _ (extractIdsDup_nodup s0)

/-- Witness for C4 at a concrete group of two files sharing the id `M31`. -/
theorem C4_duplicate_group_iff_common_witness :
    2 ≤ (["M31_a", "M31_b"] : List String).length
    ∧ ((processGroup "Messier" "h" ["M31_a", "M31_b"]).isSome
        ↔ ∃ x, ∀ s ∈ (["M31_a", "M31_b"] : List String), x ∈ extractIdsDup s) :=
  ⟨by decide, (C4_duplicate_group_iff_common "Messier" "h" ["M31_a", "M31_b"] (by decide)).1⟩

/-- C5: the router picks exactly one catalog per file by the fixed
priority `Messier > NGC > IC > Caldwell`: if the extracted ids contain both
a Messier id and an NGC id the chosen catalog is Messier; a file whose
extracted id list yields no catalog prefix is skipped, not moved. -/
theorem C5_router_priority_and_skip :
    (∀ objectIds : List String,
      (∃ i ∈ objectIds, strStartsWith i "M" = true) →
      (∃ j ∈ objectIds, strStartsWith j "NGC" = true) →
      chosenCatalogOf objectIds = some "Messier")
    ∧ (∀ (catalogDirs : List (String × String)) (stem : String),
        pickCatalog (extractIdsSorter (upperStr stem)) = none →
        routeDecision catalogDirs stem = RouteAction.skip) := by
  constructor
  · rintro objectIds ⟨i, hi, hsw⟩ _
    have hany : (objectIds.any (fun x => strStartsWith x "M")) = true :=
      List.any_eq_true.mpr ⟨i, hi, hsw⟩
    have hpick : pickCatalog objectIds = some "M" := by
      unfold pickCatalog
      have hp : (fun pfx => objectIds.any (fun i => strStartsWith i pfx)) "M" = true := hany
      exact List.find?_cons_of_pos _ hp
    unfold chosenCatalogOf
    rw [hpick]
    rfl
  · intro catalogDirs stem hnone
    unfold routeDecision
    rw [hnone]

theorem natReprAux_irrel : ∀ (fuel : Nat), ∀ (n fuel' : Nat), n < fuel → n < fuel' →
    natReprAux fuel n = natReprAux fuel' n := by
  intro fuel
  induction fuel with
  | zero => intro n fuel' h _; omega
  | succ fuel ih =>
    intro n fuel' h h'
    cases fuel' with
    | zero => omega
    | succ fuel' =>
      rw [natReprAux, natReprAux]
      by_cases h10 : n < 10
      · rw [if_pos h10, if_pos h10]
      · rw [if_neg h10, if_neg h10]
        have hdiv : n / 10 < n := Nat.div_lt_self (by omega) (by omega)
        rw [ih (n / 10) fuel' (by omega) (by omega)]

theorem digitsToNat_append_digit (ds : List Char) (c : Char) :
    digitsToNat (ds ++ [c]) = 10 * digitsToNat ds + (c.toNat - 48) := by
  unfold digitsToNat
  rw [List.foldl_append]
  simp [Nat.mul_comm]

theorem natReprAux_val : ∀ (fuel n : Nat), n < fuel →
    digitsToNat (natReprAux fuel n) = n := by
  intro fuel
  induction fuel with
  | zero => intro n h; omega
  | succ fuel ih =>
    intro n h
    rw [natReprAux]
    by_cases h10 : n < 10
    · rw [if_pos h10]
      unfold digitsToNat
      simp only [List.foldl_cons, List.foldl_nil]
      rw [charToNat_ofNat_valid (48 + n) (Or.inl (by omega))]
      omega
    · rw [if_neg h10]
      have hdiv : n / 10 < n := Nat.div_lt_self (by omega) (by omega)
      rw [digitsToNat_append_digit, ih (n / 10) (by omega),
        charToNat_ofNat_valid (48 + n % 10) (Or.inl (by
          have := Nat.mod_lt n (show 0 < 10 by omega)
          omega))]
      have hmod := Nat.mod_lt n (show 0 < 10 by omega)
      have := Nat.div_add_mod n 10
      omega

theorem natRepr_inj (a b : Nat) (h : natRepr a = natRepr b) : a = b := by
  have hdata : natReprAux (a + 1) a = natReprAux (b + 1) b := congrArg String.data h
  have ha := natReprAux_val (a + 1) a (by omega)
  have hb := natReprAux_val (b + 1) b (by omega)
  rw [← ha, ← hb, hdata]

theorem string_append_data (s t : String) : (s ++ t).data = s.data ++ t.data := by
  cases s with
  | mk ds =>
    cases t with
    | mk dt => rfl

theorem string_ext (s t : String) (h : s.data = t.data) : s = t := by
  cases s with
  | mk ds =>
    cases t with
    | mk dt => exact congrArg String.mk h

theorem candName_inj (stem suffix : String) (j j' : Nat)
    (h : candName stem suffix j = candName stem suffix j') : j = j' := by
  unfold candName at h
  have hdata := congrArg String.data h
  rw [string_append_data, string_append_data, string_append_data, string_append_data,
    string_append_data, string_append_data] at hdata
  have h4 := List.append_cancel_right hdata
  have h5 := List.append_cancel_left h4
  exact natRepr_inj j j' (string_ext _ _ h5)

theorem nodup_length_le {α : Type} [DecidableEq α] (l₁ l₂ : List α) (h : l₁ ⊆ l₂)
    (hn : l₁.Nodup) : l₁.length ≤ l₂.length := by
  have h1 := List.toFinset_card_of_nodup hn
  have h2 : l₁.toFinset ⊆ l₂.toFinset := by
    intro x hx
    simp only [List.mem_toFinset] at *
    exact h hx
  have h3 := Finset.card_le_card h2
  have h4 := l₂.toFinset_card_le
  omega

theorem exists_free_cand (existing : List String) (stem suffix : String) :
    ∃ k, 1 ≤ k ∧ k ≤ existing.length + 1 ∧ candName stem suffix k ∉ existing := by
  by_contra hcon
  push_neg at hcon
  have hsub : ((List.range (existing.length + 1)).map
      (fun i => candName stem suffix (i + 1))) ⊆ existing := by
    intro x hx
    obtain ⟨i, hi, rfl⟩ := List.mem_map.mp hx
    rw [List.mem_range] at hi
    exact hcon (i + 1) (by omega) (by omega)
  have hnd : ((List.range (existing.length + 1)).map
      (fun i => candName stem suffix (i + 1))).Nodup := by
    refine List.Nodup.map ?_ (List.nodup_range _)
    intro i j hij
    have := candName_inj stem suffix (i + 1) (j + 1) hij
    omega
  have := nodup_length_le _ _ hsub hnd
  simp at this

theorem collideLoop_spec (existing : List String) (stem suffix : String) :
    ∀ (fuel k : Nat), (∃ j, k ≤ j ∧ j ≤ k + fuel ∧ candName stem suffix j ∉ existing) →
      ∃ kf, collideLoop existing stem suffix fuel k = candName stem suffix kf
        ∧ k ≤ kf ∧ candName stem suffix kf ∉ existing
        ∧ ∀ j, k ≤ j → j < kf → candName stem suffix j ∈ existing := by
  intro fuel
  induction fuel with
  | zero =>
    intro k hex
    obtain ⟨j, h1, h2, h3⟩ := hex
    have hjk : j = k := by omega
    subst hjk
    exact ⟨j, rfl, Nat.le_refl _, h3, fun i hi1 hi2 => by omega⟩
  | succ fuel ih =>
    intro k hex
    rw [collideLoop]
    by_cases hk : candName stem suffix k ∈ existing
    · rw [if_pos hk]
      have hex2 : ∃ j, k + 1 ≤ j ∧ j ≤ (k + 1) + fuel ∧ candName stem suffix j ∉ existing := by
        obtain ⟨j, h1, h2, h3⟩ := hex
        refine ⟨j, ?_, by omega, h3⟩
        rcases Nat.eq_or_lt_of_le h1 with rfl | hlt
        · exact absurd hk h3
        · omega
      obtain ⟨kf, heq, hge, hnotin, hmin⟩ := ih (k + 1) hex2
      refine ⟨kf, heq, by omega, hnotin, ?_⟩
      intro j hj1 hj2
      rcases Nat.eq_or_lt_of_le hj1 with rfl | hlt
      · exact hk
      · exact hmin j (by omega) hj2
    · rw [if_neg hk]
      exact ⟨k, rfl, Nat.le_refl _, hk, fun j h1 h2 => by omega⟩

/-- C9: the chosen target name never collides with an existing file, and
on a collision it is `stem-k.ext` for the first free `k ≥ 1`. -/
theorem C9_collision_suffix :
    (∀ (existing : List String) (name stem suffix : String),
      chooseTarget existing name stem suffix ∉ existing)
    ∧ (∀ (existing : List String) (name stem suffix : String), name ∈ existing →
        ∃ k, 1 ≤ k ∧ chooseTarget existing name stem suffix = candName stem suffix k
          ∧ ∀ j, 1 ≤ j → j < k → candName stem suffix j ∈ existing) := by
  have hmain : ∀ (existing : List String) (name stem suffix : String), name ∈ existing →
      ∃ k, 1 ≤ k ∧ chooseTarget existing name stem suffix = candName stem suffix k
        ∧ candName stem suffix k ∉ existing
        ∧ ∀ j, 1 ≤ j → j < k → candName stem suffix j ∈ existing := by
    intro existing name stem suffix hmem
    unfold chooseTarget
    rw [if_pos hmem]
    obtain ⟨k0, hk1, hk2, hk3⟩ := exists_free_cand existing stem suffix
    obtain ⟨kf, heq, hge, hnotin, hmin⟩ := collideLoop_spec existing stem suffix
      (existing.length + 1) 1 ⟨k0, hk1, by omega, hk3⟩
    exact ⟨kf, by omega, heq, hnotin, fun j h1 h2 => hmin j h1 h2⟩
  constructor
  · intro existing name stem suffix
    by_cases hmem : name ∈ existing
    · obtain ⟨k, _, heq, hnotin, _⟩ := hmain existing name stem suffix hmem
      rw [heq]
      exact hnotin
    · unfold chooseTarget
      rw [if_neg hmem]
      exact hmem
  · intro existing name stem suffix hmem
    obtain ⟨k, hk1, heq, _, hmin⟩ := hmain existing name stem suffix hmem
    exact ⟨k, hk1, heq, hmin⟩

/-- Witness for C5: the stem `M42_NGC1976` routes to Messier. -/
theorem C5_router_priority_and_skip_witness :
    chosenCatalogOf (extractIdsSorter (upperStr "M42_NGC1976")) = some "Messier" :=
  C5_router_priority_and_skip.1 (extractIdsSorter (upperStr "M42_NGC1976"))
    (by decide) (by decide)

/-- Witness for C9 at a concrete collision: `M42.tif` and `M42-1.tif`
already exist, so the router settles on a fresh suffixed name. -/
theorem C9_collision_suffix_witness :
    ("M42.tif" ∈ (["M42.tif", "M42-1.tif"] : List String))
    ∧ chooseTarget ["M42.tif", "M42-1.tif"] "M42.tif" "M42" ".tif"
        ∉ (["M42.tif", "M42-1.tif"] : List String)
    ∧ ∃ k, 1 ≤ k ∧ chooseTarget ["M42.tif", "M42-1.tif"] "M42.tif" "M42" ".tif"
        = candName "M42" ".tif" k
        ∧ ∀ j, 1 ≤ j → j < k →
            candName "M42" ".tif" j ∈ (["M42.tif", "M42-1.tif"] : List String) :=
  ⟨by decide,
   C9_collision_suffix.1 ["M42.tif", "M42-1.tif"] "M42.tif" "M42" ".tif",
   C9_collision_suffix.2 ["M42.tif", "M42-1.tif"] "M42.tif" "M42" ".tif" (by decide)⟩

theorem toUpper_ne_d (c : Char) : c.toUpper ≠ 'd' := by
  by_cases h : c.toNat ≥ 97 ∧ c.toNat ≤ 122
  · rw [toUpper_of_lower c h]
    intro he
    have hv := charToNat_ofNat_valid (c.toNat - 32) (Or.inl (by omega))
    rw [he] at hv
    have : ('d').toNat = 100 := by decide
    omega
  · rw [toUpper_of_not_lower c h]
    intro he
    rw [he] at h
    exact h (by constructor <;> decide)

theorem upperStr_mem_ne_d (s : String) (c : Char) (hc : c ∈ (upperStr s).data) :
    c ≠ 'd' := by
  unfold upperStr at hc
  simp only at hc
  obtain ⟨a, _, rfl⟩ := List.mem_map.mp hc
  exact toUpper_ne_d a

theorem buggyMatch_upper_false (pfx s : String) :
    buggyMatch pfx (upperStr s) = false := by
  unfold buggyMatch
  cases hpre : pfx.data.isPrefixOf (upperStr s).data
  · rfl
  · rw [Bool.true_and]
    cases hrest : (upperStr s).data.drop pfx.data.length with
    | nil => rfl
    | cons c ds =>
      cases ds with
      | nil => simp
      | cons d ds2 =>
        have hd : d ∈ (upperStr s).data := by
          have : d ∈ (upperStr s).data.drop pfx.data.length := by
            rw [hrest]
            exact List.mem_cons_of_mem _ (List.mem_cons_self _ _)
          exact List.mem_of_mem_drop this
        have hne := upperStr_mem_ne_d s d hd
        simp [hne]

theorem matchesMessier_false (v : String) :
    matchesCatalogObjectId "Messier" v = false := by
  unfold matchesCatalogObjectId
  have h1 : lowerStr (pyStrip "Messier") = "messier" := by decide
  rw [h1]
  rw [if_pos rfl]
  exact buggyMatch_upper_false "M" (pyStrip v)

/-- C2 (code bug): per the claim, every image-index id matching the
catalog's id-prefix pattern (`M` followed by digits for Messier) that is
absent from metadata should yield a minimal image-only record.  But the
source writes the patterns as `r"^M\\d+$"` inside **raw** strings, so the
regex demands a literal backslash followed by letters `d`; the value is
upper-cased first, so no value whatsoever can match, and the loop never
synthesizes any record: the synthesized id set is empty for every input,
and in particular `M31` fails `_matches_catalog_object_id("Messier", "M31")`. -/
theorem C2_image_only_never_synthesized :
    (∀ (indexIds metadataIds : List String),
      imageOnlyIds "Messier" indexIds metadataIds = [])
    ∧ matchesCatalogObjectId "Messier" "M31" = false
    ∧ catalogPrefixOf "Messier" = "M" := by
  refine ⟨?_, by decide, by decide⟩
  intro indexIds metadataIds
  unfold imageOnlyIds
  rw [List.filter_eq_nil_iff]
  intro a _
  rw [matchesMessier_false a]
  simp

theorem dictInsert_mem {ν : Type} (l : List (Option String × ν)) (k : Option String)
    (v : ν) (kv : Option String × ν) (h : kv ∈ dictInsert l k v) :
    kv ∈ l ∨ kv = (k, v) := by
  induction l with
  | nil =>
    rw [dictInsert] at h
    rcases List.mem_singleton.mp h with rfl
    exact Or.inr rfl
  | cons p t ih =>
    cases p with
    | mk k' v' =>
      rw [dictInsert] at h
      by_cases hk : k' = k
      · rw [if_pos hk] at h
        rcases List.mem_cons.mp h with rfl | h2
        · exact Or.inr (by rw [hk])
        · exact Or.inl (List.mem_cons_of_mem _ h2)
      · rw [if_neg hk] at h
        rcases List.mem_cons.mp h with rfl | h2
        · exact Or.inl (List.mem_cons_self _ _)
        · rcases ih h2 with h3 | h3
          · exact Or.inl (List.mem_cons_of_mem _ h3)
          · exact Or.inr h3

/-- Every binding of the dict comprehension maps a catalog to its own name. -/
theorem existingCatalogs_inv (loaded : List RawCatalog) :
    ∀ kv ∈ existingCatalogs loaded, kv.2.name = kv.1 := by
  have hgen : ∀ (l : List RawCatalog) (d : List (Option String × RawCatalog)),
      (∀ kv ∈ d, kv.2.name = kv.1) →
      ∀ kv ∈ l.foldl (fun d c => dictInsert d c.name c) d, kv.2.name = kv.1 := by
    intro l
    induction l with
    | nil => intro d hd kv hkv; exact hd kv hkv
    | cons c t ih =>
      intro d hd kv hkv
      rw [List.foldl_cons] at hkv
      refine ih _ ?_ kv hkv
      intro kv2 hkv2
      rcases dictInsert_mem _ _ _ _ hkv2 with h1 | h1
      · exact hd kv2 h1
      · rw [h1]
  exact hgen loaded [] (fun kv hkv => absurd hkv (List.not_mem_nil kv))

theorem lookup_mem_of_some {ν : Type} [DecidableEq ν] :
    ∀ (l : List (Option String × ν)) (k : Option String) (v : ν),
      List.lookup k l = some v → (k, v) ∈ l := by
  intro l
  induction l with
  | nil => intro k v h; exact absurd h (by simp [List.lookup])
  | cons kv t ih =>
    cases kv with
    | mk a b =>
      intro k v h
      rw [List.lookup] at h
      by_cases hk : (k == a) = true
      · simp only [hk] at h
        have hkk : k = a := beq_iff_eq.mp hk
        simp only [Option.some_inj] at h
        rw [hkk, h]
        exact List.mem_cons_self _ _
      · rw [Bool.not_eq_true] at hk
        simp only [hk] at h
        exact List.mem_cons_of_mem _ (ih k v h)

/-- C10: no catalog entry named `"IC"` can come out of `load_config`:
`_merge_default_config` pops a user-configured `"IC"` catalog and the
defaults contain none, whatever the loaded configuration contains. -/
theorem C10_no_IC_catalog (fileContents : Option (List RawCatalog)) :
    (loadConfigCatalogs fileContents).all (fun c => c.name != some "IC") = true := by
  rw [List.all_eq_true]
  intro c hc
  rw [bne_iff_ne]
  unfold loadConfigCatalogs at hc
  revert c hc
  generalize (fileContents.getD []) = loaded
  intro c hc
  unfold mergeCatalogs at hc
  have hexist : ∀ kv ∈ dictPop (existingCatalogs loaded) (some "IC"),
      kv.2.name ≠ some "IC" := by
    intro kv hkv
    obtain ⟨hmem, hne⟩ := List.mem_filter.mp hkv
    have := existingCatalogs_inv loaded kv hmem
    rw [this]
    simpa using hne
  have hbase : ∀ c2 ∈ (DEFAULT_CATALOGS.map (fun dc =>
      match List.lookup dc.name (dictPop (existingCatalogs loaded) (some "IC")) with
      | some c3 => updateCatalog dc c3
      | none => dc)), c2.name ≠ some "IC" := by
    intro c2 hc2
    obtain ⟨dc, hdc, rfl⟩ := List.mem_map.mp hc2
    have hdcname : dc.name ≠ some "IC" := by
      revert hdc
      intro hdc
      fin_cases hdc <;> decide
    cases hlk : List.lookup dc.name (dictPop (existingCatalogs loaded) (some "IC")) with
    | none =>
      simp only [hlk]
      exact hdcname
    | some c3 =>
      simp only [hlk]
      have hmem := lookup_mem_of_some _ _ _ hlk
      have hinv : c3.name = dc.name := by
        obtain ⟨hmem2, _⟩ := List.mem_filter.mp hmem
        exact existingCatalogs_inv loaded _ hmem2
      unfold updateCatalog
      cases hn : c3.name with
      | none => simpa using hdcname
      | some n =>
        simp only
        rw [← hn, hinv]
        exact hdcname
  have hfold : ∀ (ex : List (Option String × RawCatalog))
      (acc : List RawCatalog),
      (∀ kv ∈ ex, kv.2.name ≠ some "IC") →
      (∀ c2 ∈ acc, c2.name ≠ some "IC") →
      ∀ c2 ∈ ex.foldl (fun acc kv =>
          if (acc.map (fun c => c.name)).contains kv.1 then acc else acc ++ [kv.2]) acc,
        c2.name ≠ some "IC" := by
    intro ex
    induction ex with
    | nil => intro acc _ hacc c2 hc2; exact hacc c2 hc2
    | cons kv t ih =>
      intro acc hex hacc c2 hc2
      rw [List.foldl_cons] at hc2
      by_cases hcond : ((acc.map (fun c => c.name)).contains kv.1) = true
      · rw [if_pos hcond] at hc2
        exact ih acc (fun p hp => hex p (List.mem_cons_of_mem _ hp)) hacc c2 hc2
      · rw [if_neg hcond] at hc2
        refine ih _ (fun p hp => hex p (List.mem_cons_of_mem _ hp)) ?_ c2 hc2
        intro c3 hc3
        rcases List.mem_append.mp hc3 with h1 | h1
        · exact hacc c3 h1
        · rw [List.mem_singleton.mp h1]
          exact hex kv (List.mem_cons_self _ _)
  exact hfold _ _ hexist hbase c hc

end AstroCat
